import Mathlib

/-!
Verification development for the crawl-hog documentation crawler.

The Python source (src/crawl.py, src/crawlhog/core/crawler.py) is shallowly
embedded below.  Strings are modelled as Lean `String` (a wrapper around
`List Char`); the CPython `urllib.parse.urlparse` / `unquote` helpers the
source relies on are modelled faithfully for the fragment of behaviour the
source exercises (ASCII processing; the IPv6-bracket `ValueError` of
`urlsplit` and the UTF-8 decoding step of `unquote`, which never affect the
netloc/path splitting used by the crawler, are not modelled).
-/

/-- Characters of the literal "https://" used when the crawler rebuilds a URL. -/
def httpsSlashes : List Char := ['h', 't', 't', 'p', 's', ':', '/', '/']

/-- ASCII lowercasing of a single character, as Python `str.lower` acts on
ASCII input (Python additionally lowercases non-ASCII letters; the crawler
only ever compares against ASCII pattern strings). -/
def lowerChar (c : Char) : Char :=
  if h : 65 ≤ c.toNat ∧ c.toNat ≤ 90 then
    Char.ofNatAux (c.toNat + 32) (Or.inl (by omega))
  else c

/-- Python `str.lower` on a whole string. -/
def lowerStr (s : String) : String := String.mk (s.data.map lowerChar)

/-- Removal of every trailing '/'; Python `str.rstrip('/')`. -/
def rstripSlash (l : List Char) : List Char :=
  (l.reverse.dropWhile (fun c => c == '/')).reverse

/-- Removal of leading and trailing '/'; Python `str.strip('/')`. -/
def stripSlashes (l : List Char) : List Char :=
  rstripSlash (l.dropWhile (fun c => c == '/'))

/-- Removal of every trailing '.' or '*'; Python `str.rstrip('.*')`,
used by the crawler on wildcard patterns. -/
def rstripDotStar (p : String) : String :=
  String.mk ((p.data.reverse.dropWhile (fun c => c == '.' || c == '*')).reverse)

/-- Occurrence of `needle` as a contiguous substring of `haystack`;
Python `needle in haystack` on strings. -/
def listContains (needle : List Char) : List Char → Bool
  | [] => needle.isEmpty
  | c :: rest => needle.isPrefixOf (c :: rest) || listContains needle rest

/-- Boolean test that `l` ends with the given suffix; Python `str.endswith`. -/
def endsWithL (suffix l : List Char) : Bool :=
  suffix.reverse.isPrefixOf l.reverse

/-- Lexicographic (code-point) order on character lists, the order Python
uses when comparing and sorting strings. -/
def lexLe : List Char → List Char → Bool
  | [], _ => true
  | _ :: _, [] => false
  | a :: as, b :: bs =>
    if a.toNat < b.toNat then true
    else if b.toNat < a.toNat then false
    else lexLe as bs

/-!  CPython `urllib.parse.urlparse` (3.11), restricted as described above.  -/

/-- WHATWG C0-control-or-space strip applied by `urlsplit` to the start of
the URL. -/
def stripControl (l : List Char) : List Char :=
  l.dropWhile (fun c => decide (c.toNat ≤ 32))

/-- Removal of tab, CR and LF anywhere in the URL, as `urlsplit` does. -/
def removeTabsNewlines (l : List Char) : List Char :=
  l.filter (fun c => !(c == '\t' || c == '\r' || c == '\n'))

/-- ASCII letter test (Python `c.isascii() and c.isalpha()`). -/
def isAsciiAlpha (c : Char) : Bool :=
  decide (65 ≤ c.toNat ∧ c.toNat ≤ 90) || decide (97 ≤ c.toNat ∧ c.toNat ≤ 122)

/-- ASCII digit test. -/
def isAsciiDigit (c : Char) : Bool :=
  decide (48 ≤ c.toNat ∧ c.toNat ≤ 57)

/-- Characters allowed in a URL scheme (letters, digits, '+', '-', '.'). -/
def isSchemeChar (c : Char) : Bool :=
  isAsciiAlpha c || isAsciiDigit c || c == '+' || c == '-' || c == '.'

/-- Scheme extraction of `urlsplit`: a ':' at a positive index, preceded
only by scheme characters starting with an ASCII letter, splits off the
(lowercased) scheme. -/
def splitScheme (l : List Char) : List Char × List Char :=
  match l.findIdx? (fun c => c == ':') with
  | some i =>
    if (i != 0) && isAsciiAlpha (l.headD ' ') && (l.take i).all isSchemeChar then
      ((l.take i).map lowerChar, l.drop (i + 1))
    else ([], l)
  | none => ([], l)

/-- Character that terminates the netloc portion of a URL. -/
def noDelim (c : Char) : Bool := c != '/' && c != '?' && c != '#'

/-- Netloc extraction of `urlsplit`: after a leading "//" (CPython tests
`url[:2] == '//'`), the netloc runs to the next '/', '?' or '#'. -/
def splitNetloc (l : List Char) : List Char × List Char :=
  if l.take 2 = ['/', '/'] then
    ((l.drop 2).takeWhile noDelim, (l.drop 2).dropWhile noDelim)
  else ([], l)

/-- Split at the first occurrence of `d`, dropping the delimiter; the whole
list and an empty remainder when `d` does not occur (Python `split(d, 1)`
guarded by a containment check). -/
def splitFirstChar (d : Char) (l : List Char) : List Char × List Char :=
  (l.takeWhile (fun c => c != d), (l.dropWhile (fun c => c != d)).drop 1)

/-- Schemes for which `urlparse` performs the path-parameter split. -/
def uses_params : List (List Char) :=
  ["".data, "ftp".data, "hdl".data, "prospero".data, "http".data,
   "imap".data, "https".data, "shttp".data, "rtsp".data, "rtspu".data,
   "sip".data, "sips".data, "mms".data, "sftp".data, "tel".data]

/-- CPython `_splitparams`: the parameters are everything after the first
';' that occurs at or after the last '/', or after the first ';' when the
path has no '/'. -/
def splitParams (p : List Char) : List Char × List Char :=
  if p.contains '/' then
    let post := (p.reverse.takeWhile (fun c => c != '/')).reverse
    if post.contains ';' then
      let keep := p.length - post.length + (post.takeWhile (fun c => c != ';')).length
      (p.take keep, p.drop (keep + 1))
    else (p, [])
  else
    splitFirstChar ';' p

/-- Components produced by parsing a URL, at the character-list level. -/
structure ParseCore where
  scheme : List Char
  netloc : List Char
  path : List Char
  params : List Char
  query : List Char
  fragment : List Char
deriving DecidableEq

/-- CPython `urlparse` pipeline: sanitize, then split off scheme, netloc,
fragment, query and (for schemes that use them) path parameters. -/
def urlparseCore (l : List Char) : ParseCore :=
  let u0 := removeTabsNewlines (stripControl l)
  let sc := splitScheme u0
  let nl := splitNetloc sc.2
  let fr := splitFirstChar '#' nl.2
  let qu := splitFirstChar '?' fr.1
  let pa := if uses_params.contains sc.1 && qu.1.contains ';' then splitParams qu.1 else (qu.1, [])
  ⟨sc.1, nl.1, pa.1, pa.2, qu.2, fr.2⟩

/-- String-level result of `urlparse`, mirroring Python's named tuple. -/
structure ParseResult where
  scheme : String
  netloc : String
  path : String
  params : String
  query : String
  fragment : String
deriving DecidableEq

/-- Python `urllib.parse.urlparse` on a string. -/
def urlparse (url : String) : ParseResult :=
  let c := urlparseCore url.data
  ⟨String.mk c.scheme, String.mk c.netloc, String.mk c.path,
   String.mk c.params, String.mk c.query, String.mk c.fragment⟩

/-- Character-list body of `normalize_url`: rebuild "https://netloc+path"
and strip trailing slashes unless the result is the bare "https://". -/
def normalizeL (l : List Char) : List Char :=
  let pr := urlparseCore l
  let normalized := httpsSlashes ++ pr.netloc ++ pr.path
  if normalized.getLast? == some '/' && decide (normalized.length > 8) then
    rstripSlash normalized
  else normalized

/-- Source `normalize_url` (crawler.py lines 74-80, crawl.py lines 128-136):
force https, rebuild from netloc and path, strip trailing slashes when the
result is longer than "https://". -/
def normalize_url (url : String) : String := String.mk (normalizeL url.data)

/-- Hexadecimal digit test used by percent-decoding. -/
def isHexDigit (c : Char) : Bool :=
  c.isDigit || ('a' ≤ c && c ≤ 'f') || ('A' ≤ c && c ≤ 'F')

/-- Value of a hexadecimal digit. -/
def hexVal (c : Char) : Nat :=
  if c.isDigit then c.toNat - 48
  else if 'a' ≤ c && c ≤ 'f' then c.toNat - 87
  else c.toNat - 55

/-- Python `urllib.parse.unquote`: each valid %XX escape becomes the byte
it denotes; invalid escapes pass through verbatim (bytes are kept as
code points; the UTF-8 re-decoding of multi-byte sequences is not modelled,
which only affects escapes at or above %80 and never produces a '/'). -/
def unquoteL : List Char → List Char
  | [] => []
  | '%' :: a :: b :: rest =>
    if isHexDigit a && isHexDigit b then
      Char.ofNat (16 * hexVal a + hexVal b) :: unquoteL rest
    else '%' :: unquoteL (a :: b :: rest)
  | c :: rest => c :: unquoteL rest

/-- Source `sanitize_filename` (crawler.py lines 82-86, crawl.py lines
73-80): URL-decode the path, strip surrounding slashes, turn interior
slashes into dashes, defaulting to "index". -/
def sanitize_filename (url : String) : String :=
  let path := unquoteL (urlparse url).path.data
  let filename := (stripSlashes path).map (fun c => if c == '/' then '-' else c)
  if filename.isEmpty then "index" else String.mk filename

/-!  Pattern classifier and discovery pipeline (crawler.py lines 14-49,
164-223; crawl.py lines 11-47, 180-243).  -/

/-- Source `get_docs_patterns`: the fixed list of documentation path rules,
extended by first-match site-specific branches keyed on substrings of the
host. -/
def get_docs_patterns (url : String) : List String :=
  let common_doc_paths : List String :=
    ["/docs/.*", "/documentation/.*", "/guide/.*", "/manual/.*",
     "/reference/.*", "/api/.*", "/learn/.*", "/tutorial/.*",
     "/quickstart/.*", "/getting-started/.*", "/examples/.*",
     "/learn", "/docs", "/api", "/reference", "/tutorial"]
  let domain := (urlparse url).netloc
  if listContains "readthedocs".data domain.data then
    common_doc_paths ++ ["/en/.*", "/latest/.*"]
  else if listContains "github.io".data domain.data then
    common_doc_paths ++ ["/.*"]
  else if listContains "react.dev".data domain.data then
    common_doc_paths ++ ["/learn", "/reference", "/community", "/blog", "/.*"]
  else common_doc_paths

/-- The per-pattern test from the doc-URL filter (crawler.py lines 206-213,
crawl.py lines 225-232): a wildcard pattern matches when its stripped form
occurs inside the lowercased URL's path, a bare pattern matches on path
equality. -/
def matchesPattern (u pattern : String) : Bool :=
  if endsWithL ".*".data pattern.data then
    listContains (rstripDotStar pattern).data (urlparse (lowerStr u)).path.data
  else pattern == (urlparse (lowerStr u)).path

/-- Domain-scoped link collection: keep links whose raw netloc equals the
base domain, then normalize each (crawler.py lines 172-175 and 198-201). -/
def internal_links (base : String) (links : List String) : List String :=
  (links.filter (fun u => (urlparse u).netloc == base)).map normalize_url

/-- Union of initial-page links and site-map links as a deduplicated list
(the Python `set`; claims about it are membership claims). -/
def all_urls (base : String) (initialLinks mapLinks : List String) : List String :=
  (internal_links base initialLinks ++ internal_links base mapLinks).dedup

/-- Classification with fallback (crawler.py lines 206-218): keep the
matching URLs, or every domain-scoped URL when nothing matches. -/
def doc_urls (patterns : List String) (urls : List String) : List String :=
  let matched := urls.filter (fun u => patterns.any (fun pattern => matchesPattern u pattern))
  if matched.isEmpty then urls else matched

/-- Python `sorted` on URL strings (code-point lexicographic order). -/
def sortedUrls (l : List String) : List String :=
  List.insertionSort (fun a b => lexLe a.data b.data = true) l

/-- Discovery phase of `DocCrawler.crawl` (crawler.py lines 157-223):
normalize the target, scope both link sources to the base domain, classify
with fallback, and apply the sorted test-mode cap of 10. -/
def crawl_discover (target : String) (initialLinks mapLinks : List String)
    (test_mode : Bool) : List String :=
  let url := normalize_url target
  let base := (urlparse url).netloc
  let du := doc_urls (get_docs_patterns url) (all_urls base initialLinks mapLinks)
  if test_mode = true ∧ 10 < du.length then (sortedUrls du).take 10 else du

/-- The candidate list of `crawl_discover` before the test-mode cap (the
`doc_urls` local of the source). -/
def discovered (target : String) (initialLinks mapLinks : List String) : List String :=
  doc_urls (get_docs_patterns (normalize_url target))
    (all_urls (urlparse (normalize_url target)).netloc initialLinks mapLinks)

/-!  Retry policy (crawler.py lines 57-72, crawl.py lines 56-71).  -/

/-- Observable outcome of running the retry loop: the final result, the
number of invocations of the wrapped operation, and the number of backoff
sleeps performed. -/
structure RetryTrace (α : Type) where
  result : Except String α
  calls : Nat
  sleeps : Nat

/-- Rate-limit detection of the source: the substring "429" occurs in the
stringified error. -/
def contains429 (e : String) : Bool := listContains "429".data e.data

/-- Loop body of `retry_with_backoff`; the operation is indexed by the
attempt number, `remaining` counts the retries still allowed (the source
compares `attempt >= max_retries`). -/
def retryGo (f : Nat → Except String α) : Nat → Nat → RetryTrace α
  | attempt, remaining =>
    match f attempt with
    | Except.ok a => ⟨Except.ok a, 1, 0⟩
    | Except.error e =>
      if contains429 e then
        match remaining with
        | 0 => ⟨Except.error e, 1, 0⟩
        | r + 1 =>
          let t := retryGo f (attempt + 1) r
          ⟨t.result, t.calls + 1, t.sleeps + 1⟩
      else ⟨Except.error e, 1, 0⟩

/-- Source `retry_with_backoff`: call the operation, sleeping and retrying
on rate-limit errors up to `max_retries` times, propagating any other
error at once. -/
def retry_with_backoff (f : Nat → Except String α) (max_retries : Nat := 5) :
    RetryTrace α :=
  retryGo f 0 max_retries

/-!  Fetch loop and result persistence (crawler.py lines 89-146, 238-271).  -/

/-- Content of one fetched page as the source stores it in `pages`. -/
structure PageData where
  markdown : String
  html : String
  metadata : List (String × String)
deriving DecidableEq

/-- One manifest entry: artifact paths plus title and description. -/
structure ManifestEntry where
  markdown_file : Option String
  html_file : Option String
  title : String
  description : String
deriving DecidableEq

/-- Python `dict.get(k, '')` on the metadata mapping. -/
def metaGet (m : List (String × String)) (k : String) : String :=
  match m.lookup k with
  | some v => v
  | none => ""

/-- Assignment `manifest['pages'][url]['html_file'] = path`, a no-op when
the url has no manifest entry (the source guards with `url in
manifest['pages']`). -/
def setHtmlFile (man : List (String × ManifestEntry)) (url path : String) :
    List (String × ManifestEntry) :=
  man.map (fun e => if e.1 == url then (e.1, { e.2 with html_file := some path }) else e)

/-- Body of the per-page loop of `DocCrawler.save_results` (crawler.py
lines 117-137): skip empty pages, write the markdown artifact and manifest
entry when markdown is present, write the HTML artifact when HTML is
present and attach it to an existing manifest entry.  The state is the
manifest together with the list of (relative path, content) files written. -/
def savePage (acc : List (String × ManifestEntry) × List (String × String))
    (entry : String × PageData) :
    List (String × ManifestEntry) × List (String × String) :=
  if entry.2.markdown == "" && entry.2.html == "" then acc
  else
    let base_filename := sanitize_filename entry.1
    let acc1 :=
      if entry.2.markdown != "" then
        (acc.1 ++ [(entry.1,
           ⟨some (base_filename ++ ".md"), none,
            metaGet entry.2.metadata "title", metaGet entry.2.metadata "description"⟩)],
         acc.2 ++ [(base_filename ++ ".md", entry.2.markdown)])
      else acc
    if entry.2.html != "" then
      (setHtmlFile acc1.1 entry.1 ("html/" ++ base_filename ++ ".html"),
       acc1.2 ++ [("html/" ++ base_filename ++ ".html", entry.2.html)])
    else acc1

/-- Source `DocCrawler.save_results` (manifest and files only; directory
creation and timestamps are I/O outside the embedding). -/
def save_results (pages : List (String × PageData)) :
    List (String × ManifestEntry) × List (String × String) :=
  pages.foldl savePage ([], [])

/-- Fetch loop of `DocCrawler.crawl` (crawler.py lines 231-271): seed the
page map with the initial page when it has content, then fetch every other
candidate, skipping it when the (retry-wrapped) fetch fails. -/
def fetch_all (fetchPage : String → Except String PageData) (url : String)
    (initial : PageData) (docUrls : List String) : List (String × PageData) :=
  let pages := if initial.markdown != "" || initial.html != "" then [(url, initial)] else []
  pages ++ docUrls.filterMap (fun page_url =>
    if page_url == url then none
    else
      match fetchPage page_url with
      | Except.ok pd => some (page_url, pd)
      | Except.error _ => none)

/-- Result of the initial scrape: content plus outbound links. -/
structure ScrapeResult where
  markdown : String
  html : String
  links : List String
  metadata : List (String × String)
deriving DecidableEq

/-- Source `DocCrawler.crawl` end to end, with the two discovery-phase
external calls supplied as already-retried outcomes (an error in either is
fatal, as in the source's outer try/except) and the per-page fetch as an
outcome-valued operation. -/
def crawl (initialScrape : Except String ScrapeResult)
    (mapResult : Except String (List String))
    (fetchPage : String → Except String PageData)
    (target : String) (test_mode : Bool) :
    Except String (List (String × ManifestEntry) × List (String × String)) :=
  match initialScrape with
  | Except.error e => Except.error e
  | Except.ok ini =>
    match mapResult with
    | Except.error e => Except.error e
    | Except.ok mapLinks =>
      let url := normalize_url target
      let du := crawl_discover target ini.links mapLinks test_mode
      let pages := fetch_all fetchPage url ⟨ini.markdown, ini.html, ini.metadata⟩ du
      Except.ok (save_results pages)

/-!  Stage accessors: named views of the successive intermediate values of
`urlparseCore`, used to state and prove lemmas stage by stage.  Each is
definitionally equal to the corresponding let-binding of `urlparseCore`.  -/

/-- Sanitized URL characters (control strip plus tab/newline removal). -/
def stage0 (l : List Char) : List Char := removeTabsNewlines (stripControl l)

/-- Scheme stage of the parse. -/
def stageScheme (l : List Char) : List Char × List Char := splitScheme (stage0 l)

/-- Netloc stage of the parse. -/
def stageNetloc (l : List Char) : List Char × List Char := splitNetloc (stageScheme l).2

/-- Fragment stage of the parse. -/
def stageFragment (l : List Char) : List Char × List Char := splitFirstChar '#' (stageNetloc l).2

/-- Query stage of the parse. -/
def stageQuery (l : List Char) : List Char × List Char := splitFirstChar '?' (stageFragment l).1

/-- Path-parameter stage of the parse. -/
def pathParamsSplit (l : List Char) : List Char × List Char :=
  if uses_params.contains (stageScheme l).1 && (stageQuery l).1.contains ';' then
    splitParams (stageQuery l).1
  else ((stageQuery l).1, [])

/-- The local variable `normalized` of the source `normalize_url`: the URL
reconstructed as "https://" plus netloc plus path, before slash stripping. -/
def reconstructed (url : String) : String :=
  String.mk (httpsSlashes ++ (urlparseCore url.data).netloc ++ (urlparseCore url.data).path)

/-- Spec-side matching predicate, written from the spec's own words
(section 4.2): a URL matches a wildcard rule when the rule's literal prefix
(the ".*" suffix stripped) occurs as a substring of the URL's path, a bare
rule only on exact path equality, case-insensitively on the path.  Compared
against the source-derived `matchesPattern` in the C4 theorem. -/
def specMatchesPattern (u pattern : String) : Bool :=
  if endsWithL ".*".data pattern.data then
    listContains (pattern.data.dropLast.dropLast) (lowerStr (urlparse u).path).data
  else pattern == lowerStr (urlparse u).path

/-!  Character-level lemmas about ASCII lowercasing.  -/

theorem toNat_ofNatAux (n : Nat) (h : n.isValidChar) : (Char.ofNatAux n h).toNat = n := rfl

theorem char_toNat_inj {c d : Char} (h : c.toNat = d.toNat) : c = d :=
  Char.ext (UInt32.toNat.inj h)

theorem lowerChar_toNat (c : Char) :
    (lowerChar c).toNat = if 65 ≤ c.toNat ∧ c.toNat ≤ 90 then c.toNat + 32 else c.toNat := by
  unfold lowerChar
  split
  · next => rw [toNat_ofNatAux]
  · next => rfl

theorem lowerChar_idem (c : Char) : lowerChar (lowerChar c) = lowerChar c := by
  apply char_toNat_inj
  rw [lowerChar_toNat, lowerChar_toNat]
  split_ifs <;> omega

theorem lowerChar_eq_iff_low {d : Char}
    (hd : d.toNat < 65 ∨ (90 < d.toNat ∧ d.toNat < 97) ∨ 122 < d.toNat) (c : Char) :
    lowerChar c = d ↔ c = d := by
  constructor
  · intro h
    apply char_toNat_inj
    have h2 := congrArg Char.toNat h
    rw [lowerChar_toNat] at h2
    split_ifs at h2 <;> omega
  · intro h
    subst h
    apply char_toNat_inj
    rw [lowerChar_toNat]
    split_ifs <;> omega

theorem beq_lowerChar (c d : Char)
    (hd : d.toNat < 65 ∨ (90 < d.toNat ∧ d.toNat < 97) ∨ 122 < d.toNat) :
    (lowerChar c == d) = (c == d) := by
  rw [Bool.eq_iff_iff, beq_iff_eq, beq_iff_eq]
  exact lowerChar_eq_iff_low hd c

theorem lowerChar_le32 (c : Char) : ((lowerChar c).toNat ≤ 32) ↔ (c.toNat ≤ 32) := by
  rw [lowerChar_toNat]
  split_ifs <;> omega

theorem isAsciiAlpha_lowerChar (c : Char) : isAsciiAlpha (lowerChar c) = isAsciiAlpha c := by
  rw [Bool.eq_iff_iff]
  simp only [isAsciiAlpha, Bool.or_eq_true, decide_eq_true_eq, lowerChar_toNat]
  split_ifs <;> omega

theorem isAsciiDigit_lowerChar (c : Char) : isAsciiDigit (lowerChar c) = isAsciiDigit c := by
  rw [Bool.eq_iff_iff]
  simp only [isAsciiDigit, decide_eq_true_eq, lowerChar_toNat]
  split_ifs <;> omega

theorem isSchemeChar_lowerChar (c : Char) : isSchemeChar (lowerChar c) = isSchemeChar c := by
  simp only [isSchemeChar, isAsciiAlpha_lowerChar, isAsciiDigit_lowerChar,
    beq_lowerChar c '+' (by decide), beq_lowerChar c '-' (by decide),
    beq_lowerChar c '.' (by decide)]

/-!  Generic list lemmas used throughout.  -/

theorem takeWhile_append_all {p : Char → Bool} {l₁ l₂ : List Char}
    (h : ∀ c ∈ l₁, p c = true) :
    (l₁ ++ l₂).takeWhile p = l₁ ++ l₂.takeWhile p := by
  induction l₁ with
  | nil => simp
  | cons a t ih =>
    have ha : p a = true := h a (List.mem_cons_self a t)
    simp only [List.cons_append, List.takeWhile_cons, ha, if_true]
    rw [ih (fun c hc => h c (List.mem_cons_of_mem a hc))]

theorem dropWhile_append_all {p : Char → Bool} {l₁ l₂ : List Char}
    (h : ∀ c ∈ l₁, p c = true) :
    (l₁ ++ l₂).dropWhile p = l₂.dropWhile p := by
  induction l₁ with
  | nil => simp
  | cons a t ih =>
    have ha : p a = true := h a (List.mem_cons_self a t)
    simp only [List.cons_append, List.dropWhile_cons, ha, if_true]
    exact ih (fun c hc => h c (List.mem_cons_of_mem a hc))

theorem dropWhile_head_false (p : Char → Bool) (l : List Char) :
    l.dropWhile p = [] ∨ ∃ c t, l.dropWhile p = c :: t ∧ p c = false := by
  induction l with
  | nil => exact Or.inl rfl
  | cons a t ih =>
    rw [List.dropWhile_cons]
    split
    · exact ih
    · next h => exact Or.inr ⟨a, t, rfl, Bool.not_eq_true _ ▸ Bool.of_not_eq_true h⟩

theorem rstripSlash_spec (l : List Char) :
    l = rstripSlash l ++ List.replicate ((l.reverse.takeWhile (fun c => c == '/')).length) '/' := by
  have hT : (l.reverse.takeWhile (fun c => c == '/')).reverse =
      List.replicate ((l.reverse.takeWhile (fun c => c == '/')).length) '/' := by
    rw [List.eq_replicate_iff]
    refine ⟨by simp, ?_⟩
    intro b hb
    rw [List.mem_reverse] at hb
    have h2 := List.mem_takeWhile_imp hb
    simpa using h2
  conv_lhs => rw [show l = l.reverse.reverse by simp]
  conv_lhs =>
    rw [show l.reverse = (l.reverse.takeWhile (fun c => c == '/')) ++
        (l.reverse.dropWhile (fun c => c == '/')) from (List.takeWhile_append_dropWhile _ _).symm]
  rw [List.reverse_append, hT]
  rfl

theorem rstripSlash_getLast (l : List Char) : (rstripSlash l).getLast? ≠ some '/' := by
  unfold rstripSlash
  rw [List.getLast?_reverse]
  rcases dropWhile_head_false (fun c => c == '/') l.reverse with h | ⟨c, t, h, hc⟩
  · rw [h]
    simp
  · rw [h]
    intro hcontra
    simp only [List.head?_cons, Option.some.injEq] at hcontra
    subst hcontra
    simp at hc

theorem mem_rstripSlash {l : List Char} {c : Char} (h : c ∈ rstripSlash l) : c ∈ l := by
  have hspec := rstripSlash_spec l
  rw [hspec]
  exact List.mem_append_left _ h

theorem rstripSlash_head (l : List Char) :
    rstripSlash l = [] ∨ (rstripSlash l).head? = l.head? := by
  rcases hr : rstripSlash l with _ | ⟨a, t⟩
  · exact Or.inl rfl
  · right
    have hspec := rstripSlash_spec l
    rw [hr] at hspec
    rw [hspec]
    rfl

theorem rstripSlash_append {l₁ l₂ : List Char} {c : Char} (h : l₁.getLast? = some c)
    (hc : (c == '/') = false) :
    rstripSlash (l₁ ++ l₂) = l₁ ++ rstripSlash l₂ := by
  have hrev : l₁.reverse.head? = some c := by rw [List.head?_reverse]; exact h
  rcases hcons : l₁.reverse with _ | ⟨x, xs⟩
  · rw [hcons] at hrev
    simp at hrev
  · have hx : x = c := by
      rw [hcons] at hrev
      simpa using hrev
    subst hx
    show (((l₁ ++ l₂).reverse).dropWhile (fun c => c == '/')).reverse = _
    rw [List.reverse_append, List.dropWhile_append]
    split
    · next he =>
      rw [List.isEmpty_iff] at he
      have h2 : rstripSlash l₂ = [] := by
        show (l₂.reverse.dropWhile (fun c => c == '/')).reverse = []
        rw [he]
        rfl
      rw [hcons]
      simp only [List.dropWhile_cons, hc, Bool.false_eq_true, if_false]
      rw [h2, List.append_nil, ← hcons, List.reverse_reverse]
    · rw [List.reverse_append]
      rw [show (l₂.reverse.dropWhile (fun c => c == '/')).reverse = rstripSlash l₂ from rfl]
      rw [List.reverse_reverse]

/-!  Concrete evaluation checks of the embedding against CPython behaviour.  -/

example : urlparse "https://x.com/a/b;c" =
    ⟨"https", "x.com", "/a/b", "c", "", ""⟩ := by decide

example : urlparse "http://x.com/a?q=1#f" =
    ⟨"http", "x.com", "/a", "", "q=1", "f"⟩ := by decide

example : normalize_url "http://x.com/a/" = "https://x.com/a" := by decide

example : normalize_url "https://x.com/a" = "https://x.com/a" := by decide

example : normalize_url "http:///" = "https:" := by decide

example : normalize_url "https:" = "https://" := by decide

example : normalize_url "a/b" = "https://a/b" := by decide

example : sanitize_filename "https://x.com/a%2Fb" = "a-b" := by decide

example : sanitize_filename "https://x.com" = "index" := by decide

example : sanitize_filename "https://x.com/guide/getting-started/" =
    "guide-getting-started" := by decide

example : crawl_discover "https://x.com"
    ["https://x.com/docs/intro", "https://sub.x.com/docs/a", "https://y.com/docs/b",
     "http://x.com/blog/post"]
    ["https://x.com/api/ref"] false =
    ["https://x.com/docs/intro", "https://x.com/api/ref"] := by decide

example : crawl_discover "/a" ["a/b"] [] false = ["https://a/b"] := by decide

example : (retry_with_backoff (fun _ => Except.error "boom") 5 : RetryTrace Nat) =
    ⟨Except.error "boom", 1, 0⟩ := rfl

example : (retry_with_backoff (fun _ => Except.error "HTTP 429") 5 : RetryTrace Nat) =
    ⟨Except.error "HTTP 429", 6, 5⟩ := rfl

/-!  Membership and shape facts about the parse stages.  -/

theorem keepChar_of_mem_stage0 {l : List Char} {c : Char} (h : c ∈ stage0 l) :
    (!(c == '\t' || c == '\r' || c == '\n')) = true := by
  unfold stage0 removeTabsNewlines at h
  have h2 := List.of_mem_filter h
  exact h2

theorem urlparseCore_eq (l : List Char) :
    urlparseCore l = ⟨(stageScheme l).1, (stageNetloc l).1, (pathParamsSplit l).1,
      (pathParamsSplit l).2, (stageQuery l).2, (stageFragment l).2⟩ := rfl

theorem contains_iff_mem {l : List Char} {c : Char} : l.contains c = true ↔ c ∈ l := by
  rw [List.contains, List.elem_iff]

theorem contains_eq_false_of_not_mem {l : List Char} {c : Char} (h : c ∉ l) :
    l.contains c = false := by
  rw [Bool.eq_false_iff]
  intro hcon
  exact h (contains_iff_mem.mp hcon)

theorem splitScheme_snd_mem {l : List Char} {c : Char} (h : c ∈ (splitScheme l).2) : c ∈ l := by
  unfold splitScheme at h
  split at h
  · split at h
    · exact (List.drop_sublist _ _).subset h
    · exact h
  · exact h

theorem splitNetloc_fst_spec {l : List Char} {c : Char} (h : c ∈ (splitNetloc l).1) :
    noDelim c = true ∧ c ∈ l := by
  unfold splitNetloc at h
  split at h
  · refine ⟨List.mem_takeWhile_imp h, ?_⟩
    have h2 := (List.takeWhile_sublist _).subset h
    exact (List.drop_sublist 2 l).subset h2
  · simp at h

theorem splitNetloc_snd_mem {l : List Char} {c : Char} (h : c ∈ (splitNetloc l).2) : c ∈ l := by
  unfold splitNetloc at h
  split at h
  · have h2 := (List.dropWhile_sublist _).subset h
    exact (List.drop_sublist 2 l).subset h2
  · exact h

theorem splitNetloc_snd_head {l : List Char} (hne : (splitNetloc l).1 ≠ []) :
    (splitNetloc l).2 = [] ∨ ∃ d t, (splitNetloc l).2 = d :: t ∧ noDelim d = false := by
  unfold splitNetloc at hne ⊢
  split at hne
  · next hcond =>
    rw [if_pos hcond]
    exact dropWhile_head_false noDelim _
  · exact absurd rfl hne

theorem splitFirstChar_fst_spec {d : Char} {l : List Char} {c : Char}
    (h : c ∈ (splitFirstChar d l).1) : (c != d) = true ∧ c ∈ l := by
  simp only [splitFirstChar] at h
  have h2 := List.mem_takeWhile_imp h
  exact ⟨h2, (List.takeWhile_sublist _).subset h⟩

theorem splitFirstChar_of_not_mem {d : Char} {l : List Char} (h : d ∉ l) :
    splitFirstChar d l = (l, []) := by
  have h1 : ∀ c ∈ l, (c != d) = true := by
    intro c hc
    rw [bne_iff_ne]
    intro hcd
    exact h (hcd ▸ hc)
  unfold splitFirstChar
  rw [List.takeWhile_eq_self_iff.mpr h1, List.dropWhile_eq_nil_iff.mpr h1]
  rfl

theorem splitParams_fst_mem {p : List Char} {c : Char} (h : c ∈ (splitParams p).1) : c ∈ p := by
  simp only [splitParams, splitFirstChar] at h
  split at h
  · split at h
    · exact (List.take_sublist _ _).subset h
    · exact h
  · exact (List.takeWhile_sublist _).subset h

theorem length_takeWhile_lt {p : Char → Bool} {l : List Char} {a : Char} (ha : a ∈ l)
    (hpa : p a = false) : (l.takeWhile p).length < l.length := by
  induction l with
  | nil => cases ha
  | cons x t ih =>
    rw [List.takeWhile_cons]
    split
    · next hx =>
      rcases List.mem_cons.mp ha with rfl | hat
      · rw [hpa] at hx
        cases hx
      · simpa using ih hat
    · simp

theorem splitParams_fst_head {p : List Char} (hh : p.head? = some '/') :
    (splitParams p).1.head? = some '/' := by
  have hmem : '/' ∈ p := by
    rcases p with _ | ⟨a, t⟩
    · simp at hh
    · simp only [List.head?_cons, Option.some.injEq] at hh
      rw [hh]
      exact List.mem_cons_self _ _
  simp only [splitParams]
  rw [if_pos (contains_iff_mem.mpr hmem)]
  split
  · have hlt : ((p.reverse.takeWhile (fun c => c != '/')).reverse).length < p.length := by
      rw [List.length_reverse]
      have : (p.reverse.takeWhile (fun c => c != '/')).length < p.reverse.length := by
        refine length_takeWhile_lt (List.mem_reverse.mpr hmem) ?_
        simp
      simpa using this
    rw [List.head?_take]
    rw [if_neg (by omega)]
    exact hh
  · exact hh

theorem noDelim_false_iff (d : Char) : noDelim d = false ↔ d = '/' ∨ d = '?' ∨ d = '#' := by
  constructor
  · intro h
    by_contra hcon
    push_neg at hcon
    obtain ⟨h1, h2, h3⟩ := hcon
    have hT : noDelim d = true := by
      simp only [noDelim, Bool.and_eq_true, bne_iff_ne]
      exact ⟨⟨h1, h2⟩, h3⟩
    rw [h] at hT
    cases hT
  · rintro (rfl | rfl | rfl) <;> rfl

/-!  Structural facts about the components of a parsed URL.  -/

theorem netloc_facts (l : List Char) :
    ∀ c ∈ (urlparseCore l).netloc,
      noDelim c = true ∧ (!(c == '\t' || c == '\r' || c == '\n')) = true := by
  intro c hc
  have hc2 : c ∈ (splitNetloc (stageScheme l).2).1 := hc
  obtain ⟨hnd, hmem⟩ := splitNetloc_fst_spec hc2
  exact ⟨hnd, keepChar_of_mem_stage0 (splitScheme_snd_mem hmem)⟩

theorem path_mem_facts (l : List Char) :
    ∀ c ∈ (urlparseCore l).path,
      (c != '#') = true ∧ (c != '?') = true ∧ (!(c == '\t' || c == '\r' || c == '\n')) = true := by
  intro c hc
  have hc2 : c ∈ (pathParamsSplit l).1 := hc
  have hq : c ∈ (stageQuery l).1 := by
    unfold pathParamsSplit at hc2
    split at hc2
    · exact splitParams_fst_mem hc2
    · exact hc2
  obtain ⟨hq2, hfr⟩ := splitFirstChar_fst_spec hq
  obtain ⟨hh2, hnl⟩ := splitFirstChar_fst_spec hfr
  exact ⟨hh2, hq2, keepChar_of_mem_stage0 (splitScheme_snd_mem (splitNetloc_snd_mem hnl))⟩

theorem path_head (l : List Char) (hne : (urlparseCore l).netloc ≠ []) :
    (urlparseCore l).path = [] ∨ (urlparseCore l).path.head? = some '/' := by
  have hne2 : (splitNetloc (stageScheme l).2).1 ≠ [] := hne
  have hfr1 : (stageFragment l).1 = ((stageNetloc l).2.takeWhile (fun c => c != '#')) := rfl
  have hqu1 : (stageQuery l).1 = ((stageFragment l).1.takeWhile (fun c => c != '?')) := rfl
  have hpath : (urlparseCore l).path = (pathParamsSplit l).1 := rfl
  rcases splitNetloc_snd_head hne2 with hnil | ⟨d, t, hdt, hnd⟩
  · left
    have h1 : (stageQuery l).1 = [] := by
      rw [hqu1, hfr1]
      rw [show (stageNetloc l).2 = [] from hnil]
      rfl
    rw [hpath]
    unfold pathParamsSplit
    rw [h1]
    simp
  · rcases (noDelim_false_iff d).mp hnd with rfl | rfl | rfl
    · -- d = '/': the path starts with '/'
      right
      have hfrh : (stageFragment l).1 = '/' :: (t.takeWhile (fun c => c != '#')) := by
        rw [hfr1]
        rw [show (stageNetloc l).2 = '/' :: t from hdt]
        rw [List.takeWhile_cons, if_pos (by decide)]
      have hquh : (stageQuery l).1 =
          '/' :: ((t.takeWhile (fun c => c != '#')).takeWhile (fun c => c != '?')) := by
        rw [hqu1, hfrh, List.takeWhile_cons, if_pos (by decide)]
      rw [hpath]
      unfold pathParamsSplit
      split
      · exact splitParams_fst_head (by rw [hquh]; rfl)
      · rw [hquh]
        rfl
    · -- d = '?': the path is empty
      left
      have h1 : (stageQuery l).1 = [] := by
        rw [hqu1, hfr1]
        rw [show (stageNetloc l).2 = '?' :: t from hdt]
        rw [List.takeWhile_cons, if_pos (by decide), List.takeWhile_cons, if_neg (by decide)]
      rw [hpath]
      unfold pathParamsSplit
      rw [h1]
      simp
    · -- d = '#': the path is empty
      left
      have h1 : (stageQuery l).1 = [] := by
        rw [hqu1, hfr1]
        rw [show (stageNetloc l).2 = '#' :: t from hdt]
        rw [List.takeWhile_cons, if_neg (by decide)]
        rfl
      rw [hpath]
      unfold pathParamsSplit
      rw [h1]
      simp

/-!  Re-parsing a URL of the shape "https://" ++ netloc ++ path.  -/

theorem splitScheme_https (rest : List Char) :
    splitScheme ('h' :: 't' :: 't' :: 'p' :: 's' :: ':' :: rest) =
      (['h', 't', 't', 'p', 's'], rest) := rfl

theorem stage0_https (b p : List Char)
    (hbK : ∀ c ∈ b, (!(c == '\t' || c == '\r' || c == '\n')) = true)
    (hpK : ∀ c ∈ p, (!(c == '\t' || c == '\r' || c == '\n')) = true) :
    stage0 (httpsSlashes ++ b ++ p) = httpsSlashes ++ (b ++ p) := by
  have hshape : httpsSlashes ++ b ++ p =
      'h' :: ('t' :: 't' :: 'p' :: 's' :: ':' :: '/' :: '/' :: (b ++ p)) := by
    rw [List.append_assoc]
    rfl
  unfold stage0 stripControl removeTabsNewlines
  rw [hshape, List.dropWhile_cons, if_neg (by decide)]
  rw [show ('h' :: ('t' :: 't' :: 'p' :: 's' :: ':' :: '/' :: '/' :: (b ++ p))) =
      httpsSlashes ++ (b ++ p) from rfl]
  rw [List.filter_append, List.filter_append, List.filter_eq_self.mpr hbK,
    List.filter_eq_self.mpr hpK]
  rfl

theorem stageScheme_https (b p : List Char)
    (hbK : ∀ c ∈ b, (!(c == '\t' || c == '\r' || c == '\n')) = true)
    (hpK : ∀ c ∈ p, (!(c == '\t' || c == '\r' || c == '\n')) = true) :
    stageScheme (httpsSlashes ++ b ++ p) = (['h', 't', 't', 'p', 's'], '/' :: '/' :: (b ++ p)) := by
  unfold stageScheme
  rw [stage0_https b p hbK hpK]
  rw [show httpsSlashes ++ (b ++ p) =
      'h' :: 't' :: 't' :: 'p' :: 's' :: ':' :: ('/' :: '/' :: (b ++ p)) from rfl]
  exact splitScheme_https _

theorem stageNetloc_https (b p : List Char)
    (hbD : ∀ c ∈ b, noDelim c = true)
    (hbK : ∀ c ∈ b, (!(c == '\t' || c == '\r' || c == '\n')) = true)
    (hpK : ∀ c ∈ p, (!(c == '\t' || c == '\r' || c == '\n')) = true)
    (hp : p = [] ∨ p.head? = some '/') :
    stageNetloc (httpsSlashes ++ b ++ p) = (b, p) := by
  unfold stageNetloc
  rw [stageScheme_https b p hbK hpK]
  show splitNetloc ('/' :: '/' :: (b ++ p)) = (b, p)
  rw [show splitNetloc ('/' :: '/' :: (b ++ p)) =
      ((b ++ p).takeWhile noDelim, (b ++ p).dropWhile noDelim) from rfl]
  rw [takeWhile_append_all hbD, dropWhile_append_all hbD]
  rcases hp with rfl | hh
  · simp
  · rcases p with _ | ⟨ph, pt⟩
    · simp at hh
    · have hph : ph = '/' := by simpa using hh
      subst hph
      rw [List.takeWhile_cons, if_neg (by decide), List.dropWhile_cons, if_neg (by decide)]
      simp

theorem netloc_of_https (b p : List Char)
    (hbD : ∀ c ∈ b, noDelim c = true)
    (hbK : ∀ c ∈ b, (!(c == '\t' || c == '\r' || c == '\n')) = true)
    (hpK : ∀ c ∈ p, (!(c == '\t' || c == '\r' || c == '\n')) = true)
    (hp : p = [] ∨ p.head? = some '/') :
    (urlparseCore (httpsSlashes ++ b ++ p)).netloc = b := by
  have h : (urlparseCore (httpsSlashes ++ b ++ p)).netloc =
      (stageNetloc (httpsSlashes ++ b ++ p)).1 := rfl
  rw [h, stageNetloc_https b p hbD hbK hpK hp]

theorem urlparseCore_https (b p : List Char)
    (hbD : ∀ c ∈ b, noDelim c = true)
    (hbK : ∀ c ∈ b, (!(c == '\t' || c == '\r' || c == '\n')) = true)
    (hpK : ∀ c ∈ p, (!(c == '\t' || c == '\r' || c == '\n')) = true)
    (hp : p = [] ∨ p.head? = some '/')
    (hpH : ('#' : Char) ∉ p) (hpQ : ('?' : Char) ∉ p) (hpS : (';' : Char) ∉ p) :
    urlparseCore (httpsSlashes ++ b ++ p) = ⟨['h', 't', 't', 'p', 's'], b, p, [], [], []⟩ := by
  have hnl := stageNetloc_https b p hbD hbK hpK hp
  have hsc := stageScheme_https b p hbK hpK
  have hfr : stageFragment (httpsSlashes ++ b ++ p) = (p, []) := by
    unfold stageFragment
    rw [hnl]
    exact splitFirstChar_of_not_mem hpH
  have hqu : stageQuery (httpsSlashes ++ b ++ p) = (p, []) := by
    unfold stageQuery
    rw [hfr]
    exact splitFirstChar_of_not_mem hpQ
  have hqu1 : (stageQuery (httpsSlashes ++ b ++ p)).1 = p := by rw [hqu]
  have hpa : pathParamsSplit (httpsSlashes ++ b ++ p) = (p, []) := by
    unfold pathParamsSplit
    rw [hqu1, contains_eq_false_of_not_mem hpS, Bool.and_false]
    simp
  rw [urlparseCore_eq, hsc, hnl, hfr, hqu, hpa]

/-!  Behaviour of `normalizeL` on parse components.  -/

theorem normalizeL_eq (l : List Char) :
    normalizeL l =
      if (httpsSlashes ++ (urlparseCore l).netloc ++ (urlparseCore l).path).getLast? == some '/' &&
          decide ((httpsSlashes ++ (urlparseCore l).netloc ++ (urlparseCore l).path).length > 8) then
        rstripSlash (httpsSlashes ++ (urlparseCore l).netloc ++ (urlparseCore l).path)
      else httpsSlashes ++ (urlparseCore l).netloc ++ (urlparseCore l).path := rfl

theorem mem_of_mem_stage0 {l : List Char} {c : Char} (h : c ∈ stage0 l) : c ∈ l := by
  unfold stage0 removeTabsNewlines stripControl at h
  exact (List.dropWhile_sublist _).subset ((List.filter_sublist _).subset h)

theorem mem_of_getLast?_eq {l : List Char} {c : Char} (h : l.getLast? = some c) : c ∈ l := by
  rw [List.getLast?_eq_head?_reverse] at h
  rcases hrev : l.reverse with _ | ⟨x, xs⟩
  · rw [hrev] at h
    cases h
  · rw [hrev] at h
    simp only [List.head?_cons, Option.some.injEq] at h
    subst h
    rw [← List.mem_reverse, hrev]
    exact List.mem_cons_self _ _

theorem getLast?_of_ne_nil {l : List Char} (hb : l ≠ []) : ∃ c, l.getLast? = some c := by
  rcases hgl : l.getLast? with _ | c
  · rw [List.getLast?_eq_head?_reverse] at hgl
    rcases hrev : l.reverse with _ | ⟨x, xs⟩
    · have h2 := congrArg List.reverse hrev
      rw [List.reverse_reverse] at h2
      exact absurd h2 hb
    · rw [hrev] at hgl
      cases hgl
  · exact ⟨c, rfl⟩

theorem some_beq_slash_false {c : Char} (h : (c == '/') = false) :
    ((some c == some '/') : Bool) = false := by
  rw [beq_eq_false_iff_ne] at h ⊢
  intro hcon
  exact h (Option.some.inj hcon)

theorem mem_normalizeL {l : List Char} {c : Char} (h : c ∈ normalizeL l) :
    c ∈ httpsSlashes ∨ c ∈ (urlparseCore l).netloc ∨ c ∈ (urlparseCore l).path := by
  rw [normalizeL_eq] at h
  have h2 : c ∈ httpsSlashes ++ (urlparseCore l).netloc ++ (urlparseCore l).path := by
    split at h
    · exact mem_rstripSlash h
    · exact h
  rcases List.mem_append.mp h2 with h3 | h3
  · rcases List.mem_append.mp h3 with h4 | h4
    · exact Or.inl h4
    · exact Or.inr (Or.inl h4)
  · exact Or.inr (Or.inr h3)

theorem fragment_empty {l : List Char} (h : ('#' : Char) ∉ l) : (urlparseCore l).fragment = [] := by
  show (splitFirstChar '#' (stageNetloc l).2).2 = []
  have hnot : ('#' : Char) ∉ (stageNetloc l).2 := fun hc =>
    h (mem_of_mem_stage0 (splitScheme_snd_mem (splitNetloc_snd_mem hc)))
  rw [splitFirstChar_of_not_mem hnot]

theorem query_empty {l : List Char} (h : ('?' : Char) ∉ l) : (urlparseCore l).query = [] := by
  show (splitFirstChar '?' (stageFragment l).1).2 = []
  have hnot : ('?' : Char) ∉ (stageFragment l).1 := fun hc =>
    h (mem_of_mem_stage0 (splitScheme_snd_mem (splitNetloc_snd_mem
      ((splitFirstChar_fst_spec hc).2))))
  rw [splitFirstChar_of_not_mem hnot]

theorem scheme_of_https_shape (rest : List Char) :
    (urlparseCore ('h' :: 't' :: 't' :: 'p' :: 's' :: ':' :: rest)).scheme =
      ['h', 't', 't', 'p', 's'] := by
  have h0 : stage0 ('h' :: 't' :: 't' :: 'p' :: 's' :: ':' :: rest) =
      'h' :: 't' :: 't' :: 'p' :: 's' :: ':' ::
        (rest.filter (fun c => !(c == '\t' || c == '\r' || c == '\n'))) := by
    unfold stage0 stripControl removeTabsNewlines
    rw [List.dropWhile_cons, if_neg (by decide)]
    rfl
  show (splitScheme (stage0 _)).1 = _
  rw [h0, splitScheme_https]

theorem normalizeL_shape (l : List Char) :
    ∃ rest, normalizeL l = 'h' :: 't' :: 't' :: 'p' :: 's' :: ':' :: rest := by
  rw [normalizeL_eq]
  split
  · refine ⟨rstripSlash ('/' :: '/' :: ((urlparseCore l).netloc ++ (urlparseCore l).path)), ?_⟩
    have hshape : httpsSlashes ++ (urlparseCore l).netloc ++ (urlparseCore l).path =
        (['h', 't', 't', 'p', 's', ':'] : List Char) ++
          ('/' :: '/' :: ((urlparseCore l).netloc ++ (urlparseCore l).path)) := by
      rw [List.append_assoc]
      rfl
    rw [hshape, rstripSlash_append (show (['h', 't', 't', 'p', 's', ':'] : List Char).getLast? =
      some ':' from rfl) (by decide)]
    rfl
  · refine ⟨'/' :: '/' :: ((urlparseCore l).netloc ++ (urlparseCore l).path), ?_⟩
    rw [List.append_assoc]
    rfl

theorem netloc_getLast_not_slash (l : List Char) (hb : (urlparseCore l).netloc ≠ []) :
    ∃ cb, (httpsSlashes ++ (urlparseCore l).netloc).getLast? = some cb ∧ (cb == '/') = false := by
  obtain ⟨cb, hcb⟩ := getLast?_of_ne_nil hb
  refine ⟨cb, ?_, ?_⟩
  · rw [List.getLast?_append, hcb]
    rfl
  · have hnd := (netloc_facts l cb (mem_of_getLast?_eq hcb)).1
    rw [Bool.eq_false_iff]
    intro hcon
    rw [beq_iff_eq.mp hcon] at hnd
    exact absurd hnd (by decide)

theorem netloc_normalizeL (l : List Char) (hb : (urlparseCore l).netloc ≠ []) :
    (urlparseCore (normalizeL l)).netloc = (urlparseCore l).netloc := by
  have hbD : ∀ c ∈ (urlparseCore l).netloc, noDelim c = true := fun c hc => (netloc_facts l c hc).1
  have hbK : ∀ c ∈ (urlparseCore l).netloc, (!(c == '\t' || c == '\r' || c == '\n')) = true :=
    fun c hc => (netloc_facts l c hc).2
  have hpK : ∀ c ∈ (urlparseCore l).path, (!(c == '\t' || c == '\r' || c == '\n')) = true :=
    fun c hc => (path_mem_facts l c hc).2.2
  have hph := path_head l hb
  rw [normalizeL_eq]
  split
  · obtain ⟨cb, hglApp, hcbslash⟩ := netloc_getLast_not_slash l hb
    rw [rstripSlash_append hglApp hcbslash]
    refine netloc_of_https _ _ hbD hbK (fun c hc => hpK c (mem_rstripSlash hc)) ?_
    rcases rstripSlash_head (urlparseCore l).path with h | h
    · exact Or.inl h
    · rcases hph with hnil | hh
      · left
        rw [hnil]
        rfl
      · right
        rw [h, hh]
  · exact netloc_of_https _ _ hbD hbK hpK hph

theorem normalizeL_split (l : List Char) (hb : (urlparseCore l).netloc ≠ []) :
    ∃ p2 : List Char,
      normalizeL l = httpsSlashes ++ (urlparseCore l).netloc ++ p2 ∧
      (∀ c ∈ p2, c ∈ (urlparseCore l).path) ∧
      (p2 = [] ∨ p2.head? = some '/') ∧
      ((httpsSlashes ++ (urlparseCore l).netloc ++ p2).getLast? == some '/') = false := by
  have hph := path_head l hb
  obtain ⟨cb, hglApp, hcbslash⟩ := netloc_getLast_not_slash l hb
  rw [normalizeL_eq]
  split
  · -- trailing slashes stripped
    refine ⟨rstripSlash (urlparseCore l).path, rstripSlash_append hglApp hcbslash, ?_, ?_, ?_⟩
    · exact fun c hc => mem_rstripSlash hc
    · rcases rstripSlash_head (urlparseCore l).path with h | h
      · exact Or.inl h
      · rcases hph with hnil | hh
        · left
          rw [hnil]
          rfl
        · right
          rw [h, hh]
    · rw [List.getLast?_append]
      rcases hpn : (rstripSlash (urlparseCore l).path).getLast? with _ | y
      · rw [hglApp]
        exact hcbslash
      · have hne := rstripSlash_getLast (urlparseCore l).path
        have hor : ((some y).or ((httpsSlashes ++ (urlparseCore l).netloc).getLast?)) = some y :=
          rfl
        rw [hor, beq_eq_false_iff_ne]
        intro hcon
        rw [hcon] at hpn
        exact hne hpn
  · -- nothing stripped: the length guard holds, so the last character is not '/'
    next hcond =>
      refine ⟨(urlparseCore l).path, rfl, fun c hc => hc, hph, ?_⟩
      have hlen : decide ((httpsSlashes ++ (urlparseCore l).netloc ++
          (urlparseCore l).path).length > 8) = true := by
        rw [decide_eq_true_eq]
        rcases hn : (urlparseCore l).netloc with _ | ⟨x, xs⟩
        · exact absurd hn hb
        · rw [List.append_assoc, List.length_append,
            show httpsSlashes.length = 8 from rfl, List.length_append, List.length_cons]
          omega
      rcases hA : ((httpsSlashes ++ (urlparseCore l).netloc ++
          (urlparseCore l).path).getLast? == some '/') with _ | _
      · rfl
      · rw [hA, hlen] at hcond
        exact absurd rfl hcond

theorem normalizeL_fixpoint (b p2 : List Char)
    (hbD : ∀ c ∈ b, noDelim c = true)
    (hbK : ∀ c ∈ b, (!(c == '\t' || c == '\r' || c == '\n')) = true)
    (hpK : ∀ c ∈ p2, (!(c == '\t' || c == '\r' || c == '\n')) = true)
    (hp : p2 = [] ∨ p2.head? = some '/')
    (hpH : ('#' : Char) ∉ p2) (hpQ : ('?' : Char) ∉ p2) (hpS : (';' : Char) ∉ p2)
    (hgl : ((httpsSlashes ++ b ++ p2).getLast? == some '/') = false) :
    normalizeL (httpsSlashes ++ b ++ p2) = httpsSlashes ++ b ++ p2 := by
  have hcore := urlparseCore_https b p2 hbD hbK hpK hp hpH hpQ hpS
  have hnet : (urlparseCore (httpsSlashes ++ b ++ p2)).netloc = b := by rw [hcore]
  have hpath : (urlparseCore (httpsSlashes ++ b ++ p2)).path = p2 := by rw [hcore]
  rw [normalizeL_eq, hnet, hpath, hgl, Bool.false_and, if_neg (by simp)]

theorem normalizeL_idem (l : List Char) (hb : (urlparseCore l).netloc ≠ [])
    (hs : (';' : Char) ∉ (urlparseCore l).path) :
    normalizeL (normalizeL l) = normalizeL l := by
  obtain ⟨p2, heq, hmem, hhead, hgl⟩ := normalizeL_split l hb
  have hbD : ∀ c ∈ (urlparseCore l).netloc, noDelim c = true := fun c hc => (netloc_facts l c hc).1
  have hbK : ∀ c ∈ (urlparseCore l).netloc, (!(c == '\t' || c == '\r' || c == '\n')) = true :=
    fun c hc => (netloc_facts l c hc).2
  have hpK : ∀ c ∈ (urlparseCore l).path, (!(c == '\t' || c == '\r' || c == '\n')) = true :=
    fun c hc => (path_mem_facts l c hc).2.2
  have hpH : ('#' : Char) ∉ (urlparseCore l).path := by
    intro hc
    have h2 := (path_mem_facts l '#' hc).1
    simp at h2
  have hpQ : ('?' : Char) ∉ (urlparseCore l).path := by
    intro hc
    have h2 := (path_mem_facts l '?' hc).2.1
    simp at h2
  rw [heq]
  exact normalizeL_fixpoint _ _ hbD hbK (fun c hc => hpK c (hmem c hc)) hhead
    (fun hc => hpH (hmem _ hc)) (fun hc => hpQ (hmem _ hc)) (fun hc => hs (hmem _ hc)) hgl

/-!  Lowercasing commutes with URL parsing: predicate transport lemmas.  -/

theorem dropWhile_map_congr {p : Char → Bool} (hp : ∀ c, p (lowerChar c) = p c) (l : List Char) :
    (l.map lowerChar).dropWhile p = (l.dropWhile p).map lowerChar := by
  induction l with
  | nil => rfl
  | cons a t ih =>
    rw [List.map_cons, List.dropWhile_cons, List.dropWhile_cons, hp a]
    split
    · exact ih
    · rw [List.map_cons]

theorem takeWhile_map_congr {p : Char → Bool} (hp : ∀ c, p (lowerChar c) = p c) (l : List Char) :
    (l.map lowerChar).takeWhile p = (l.takeWhile p).map lowerChar := by
  induction l with
  | nil => rfl
  | cons a t ih =>
    rw [List.map_cons, List.takeWhile_cons, List.takeWhile_cons, hp a]
    split
    · rw [List.map_cons, ih]
    · rfl

theorem filter_map_congr {p : Char → Bool} (hp : ∀ c, p (lowerChar c) = p c) (l : List Char) :
    (l.map lowerChar).filter p = (l.filter p).map lowerChar := by
  induction l with
  | nil => rfl
  | cons a t ih =>
    rw [List.map_cons, List.filter_cons, List.filter_cons, hp a]
    split
    · rw [List.map_cons, ih]
    · exact ih

theorem findIdx?_map_congr {p : Char → Bool} (hp : ∀ c, p (lowerChar c) = p c) (l : List Char) :
    ∀ i, (l.map lowerChar).findIdx? p i = l.findIdx? p i := by
  induction l with
  | nil => intro i; rfl
  | cons a t ih =>
    intro i
    rw [List.map_cons, List.findIdx?_cons, List.findIdx?_cons, hp a]
    split
    · rfl
    · exact ih (i + 1)

theorem hp_strip (c : Char) : decide ((lowerChar c).toNat ≤ 32) = decide (c.toNat ≤ 32) := by
  rw [Bool.eq_iff_iff, decide_eq_true_eq, decide_eq_true_eq]
  exact lowerChar_le32 c

theorem hp_keep (c : Char) :
    (!(lowerChar c == '\t' || lowerChar c == '\r' || lowerChar c == '\n')) =
      (!(c == '\t' || c == '\r' || c == '\n')) := by
  rw [beq_lowerChar c '\t' (by decide), beq_lowerChar c '\r' (by decide),
    beq_lowerChar c '\n' (by decide)]

theorem hp_noDelim (c : Char) : noDelim (lowerChar c) = noDelim c := by
  simp only [noDelim, bne, beq_lowerChar c '/' (by decide), beq_lowerChar c '?' (by decide),
    beq_lowerChar c '#' (by decide)]

theorem hp_bne (d : Char) (hd : d.toNat < 65 ∨ (90 < d.toNat ∧ d.toNat < 97) ∨ 122 < d.toNat)
    (c : Char) : (lowerChar c != d) = (c != d) := by
  simp only [bne, beq_lowerChar c d hd]

theorem stage0_map (l : List Char) : stage0 (l.map lowerChar) = (stage0 l).map lowerChar := by
  unfold stage0 stripControl removeTabsNewlines
  rw [dropWhile_map_congr hp_strip, filter_map_congr hp_keep]

theorem headD_map_lower (l : List Char) : (l.map lowerChar).headD ' ' = lowerChar (l.headD ' ') := by
  cases l
  · rfl
  · rfl

theorem all_isSchemeChar_map (x : List Char) :
    (x.map lowerChar).all isSchemeChar = x.all isSchemeChar := by
  induction x with
  | nil => rfl
  | cons a t ih => rw [List.map_cons, List.all_cons, List.all_cons, isSchemeChar_lowerChar, ih]

theorem map_lowerChar_idem (x : List Char) : (x.map lowerChar).map lowerChar = x.map lowerChar := by
  rw [List.map_map]
  exact List.map_congr_left (fun c _ => lowerChar_idem c)

theorem contains_map_lower (l : List Char) (d : Char)
    (hd : d.toNat < 65 ∨ (90 < d.toNat ∧ d.toNat < 97) ∨ 122 < d.toNat) :
    (l.map lowerChar).contains d = l.contains d := by
  rw [Bool.eq_iff_iff, contains_iff_mem, contains_iff_mem]
  constructor
  · intro h
    obtain ⟨c, hc, hcd⟩ := List.mem_map.mp h
    rw [(lowerChar_eq_iff_low hd c).mp hcd] at hc
    exact hc
  · intro h
    have h2 : lowerChar d = d := (lowerChar_eq_iff_low hd d).mpr rfl
    rw [← h2]
    exact List.mem_map_of_mem lowerChar h

theorem splitScheme_map (l : List Char) :
    splitScheme (l.map lowerChar) = ((splitScheme l).1, (splitScheme l).2.map lowerChar) := by
  unfold splitScheme
  rw [findIdx?_map_congr (fun c => beq_lowerChar c ':' (by decide)) l 0]
  rcases hidx : l.findIdx? (fun c => c == ':') with _ | i
  · rfl
  · dsimp only
    rw [headD_map_lower, isAsciiAlpha_lowerChar, ← List.map_take, all_isSchemeChar_map]
    by_cases hC : ((i != 0) && isAsciiAlpha (l.headD ' ') && (l.take i).all isSchemeChar) = true
    · rw [if_pos hC, if_pos hC, map_lowerChar_idem, ← List.map_drop]
    · rw [if_neg hC, if_neg hC]

theorem take2_slashes_map (l : List Char) :
    ((l.map lowerChar).take 2 = ['/', '/']) ↔ (l.take 2 = ['/', '/']) := by
  rcases l with _ | ⟨a, _ | ⟨b, rest⟩⟩
  · simp
  · simp
  · show ([lowerChar a, lowerChar b] = ['/', '/']) ↔ ([a, b] = ['/', '/'])
    constructor
    · intro h
      have h2 : lowerChar a = '/' ∧ lowerChar b = '/' := by simpa using h
      have ha := (lowerChar_eq_iff_low (by decide) a).mp h2.1
      have hb := (lowerChar_eq_iff_low (by decide) b).mp h2.2
      simp [ha, hb]
    · intro h
      have h2 : a = '/' ∧ b = '/' := by simpa using h
      simp [h2.1, h2.2]
      rfl

theorem splitNetloc_map (l : List Char) :
    splitNetloc (l.map lowerChar) =
      ((splitNetloc l).1.map lowerChar, (splitNetloc l).2.map lowerChar) := by
  unfold splitNetloc
  by_cases hC : l.take 2 = ['/', '/']
  · rw [if_pos ((take2_slashes_map l).mpr hC), if_pos hC, ← List.map_drop,
      takeWhile_map_congr hp_noDelim, dropWhile_map_congr hp_noDelim]
  · rw [if_neg (fun hcon => hC ((take2_slashes_map l).mp hcon)), if_neg hC]
    rfl

theorem splitFirstChar_map {d : Char}
    (hd : d.toNat < 65 ∨ (90 < d.toNat ∧ d.toNat < 97) ∨ 122 < d.toNat) (l : List Char) :
    splitFirstChar d (l.map lowerChar) =
      ((splitFirstChar d l).1.map lowerChar, (splitFirstChar d l).2.map lowerChar) := by
  unfold splitFirstChar
  rw [takeWhile_map_congr (hp_bne d hd), dropWhile_map_congr (hp_bne d hd), ← List.map_drop]

theorem splitParams_map (p : List Char) :
    splitParams (p.map lowerChar) =
      ((splitParams p).1.map lowerChar, (splitParams p).2.map lowerChar) := by
  simp only [splitParams]
  rw [contains_map_lower p '/' (by decide)]
  by_cases hC : p.contains '/' = true
  · rw [if_pos hC, if_pos hC]
    have hpost : ((p.map lowerChar).reverse.takeWhile (fun c => c != '/')).reverse =
        ((p.reverse.takeWhile (fun c => c != '/')).reverse).map lowerChar := by
      rw [← List.map_reverse, takeWhile_map_congr (hp_bne '/' (by decide)), List.map_reverse]
    rw [hpost, contains_map_lower _ ';' (by decide)]
    by_cases hS : ((p.reverse.takeWhile (fun c => c != '/')).reverse).contains ';' = true
    · rw [if_pos hS, if_pos hS, List.length_map, List.length_map,
        takeWhile_map_congr (hp_bne ';' (by decide)), List.length_map,
        ← List.map_take, ← List.map_drop]
    · rw [if_neg hS, if_neg hS]
      rfl
  · rw [if_neg hC, if_neg hC]
    exact splitFirstChar_map (by decide) p

theorem urlparseCore_map_lower (l : List Char) :
    urlparseCore (l.map lowerChar) =
      ⟨(urlparseCore l).scheme, (urlparseCore l).netloc.map lowerChar,
       (urlparseCore l).path.map lowerChar, (urlparseCore l).params.map lowerChar,
       (urlparseCore l).query.map lowerChar, (urlparseCore l).fragment.map lowerChar⟩ := by
  have hsc : stageScheme (l.map lowerChar) =
      ((stageScheme l).1, (stageScheme l).2.map lowerChar) := by
    unfold stageScheme
    rw [stage0_map, splitScheme_map]
  have hsc1 : (stageScheme (l.map lowerChar)).1 = (stageScheme l).1 := by rw [hsc]
  have hsc2 : (stageScheme (l.map lowerChar)).2 = (stageScheme l).2.map lowerChar := by rw [hsc]
  have hnl : stageNetloc (l.map lowerChar) =
      ((stageNetloc l).1.map lowerChar, (stageNetloc l).2.map lowerChar) := by
    unfold stageNetloc
    rw [hsc2]
    exact splitNetloc_map _
  have hnl2 : (stageNetloc (l.map lowerChar)).2 = (stageNetloc l).2.map lowerChar := by rw [hnl]
  have hfr : stageFragment (l.map lowerChar) =
      ((stageFragment l).1.map lowerChar, (stageFragment l).2.map lowerChar) := by
    unfold stageFragment
    rw [hnl2]
    exact splitFirstChar_map (by decide) _
  have hfr1 : (stageFragment (l.map lowerChar)).1 = (stageFragment l).1.map lowerChar := by
    rw [hfr]
  have hqu : stageQuery (l.map lowerChar) =
      ((stageQuery l).1.map lowerChar, (stageQuery l).2.map lowerChar) := by
    unfold stageQuery
    rw [hfr1]
    exact splitFirstChar_map (by decide) _
  have hqu1 : (stageQuery (l.map lowerChar)).1 = (stageQuery l).1.map lowerChar := by rw [hqu]
  have hpa : pathParamsSplit (l.map lowerChar) =
      ((pathParamsSplit l).1.map lowerChar, (pathParamsSplit l).2.map lowerChar) := by
    unfold pathParamsSplit
    rw [hsc1, hqu1, contains_map_lower _ ';' (by decide)]
    by_cases hC : (uses_params.contains (stageScheme l).1 && (stageQuery l).1.contains ';') = true
    · rw [if_pos hC, if_pos hC]
      exact splitParams_map _
    · rw [if_neg hC, if_neg hC]
      rfl
  rw [urlparseCore_eq, urlparseCore_eq, hsc, hnl, hfr, hqu, hpa]

theorem path_lower_comm (u : String) :
    (urlparse (lowerStr u)).path = lowerStr ((urlparse u).path) := by
  show String.mk (urlparseCore (u.data.map lowerChar)).path =
    String.mk ((urlparseCore u.data).path.map lowerChar)
  rw [urlparseCore_map_lower]

theorem matchesPattern_eq_spec_wildcard (u pattern : String)
    (hw : endsWithL ".*".data pattern.data = true)
    (hr : (rstripDotStar pattern).data = pattern.data.dropLast.dropLast) :
    matchesPattern u pattern = specMatchesPattern u pattern := by
  unfold matchesPattern specMatchesPattern
  rw [hw, hr, path_lower_comm u]

theorem matchesPattern_eq_spec_bare (u pattern : String)
    (hw : endsWithL ".*".data pattern.data = false) :
    matchesPattern u pattern = specMatchesPattern u pattern := by
  unfold matchesPattern specMatchesPattern
  rw [hw, path_lower_comm u]
  simp

/-!  The lexicographic order used by the test-mode cap.  -/

theorem lexLe_total (a b : List Char) : lexLe a b = true ∨ lexLe b a = true := by
  induction a generalizing b with
  | nil => exact Or.inl rfl
  | cons x xs ih =>
    cases b with
    | nil => exact Or.inr rfl
    | cons y ys =>
      unfold lexLe
      by_cases h1 : x.toNat < y.toNat
      · left
        rw [if_pos h1]
      · by_cases h2 : y.toNat < x.toNat
        · right
          rw [if_pos h2]
        · rw [if_neg h1, if_neg h2, if_neg (by omega), if_neg (by omega)]
          exact ih ys

theorem lexLe_trans (a b c : List Char) (hab : lexLe a b = true) (hbc : lexLe b c = true) :
    lexLe a c = true := by
  induction a generalizing b c with
  | nil => rfl
  | cons x xs ih =>
    cases b with
    | nil => exact absurd hab (by simp [lexLe])
    | cons y ys =>
      cases c with
      | nil => exact absurd hbc (by simp [lexLe])
      | cons z zs =>
        unfold lexLe at hab hbc ⊢
        by_cases hxy : x.toNat < y.toNat
        · by_cases hyz : y.toNat < z.toNat
          · rw [if_pos (by omega)]
          · rw [if_neg hyz] at hbc
            by_cases hzy : z.toNat < y.toNat
            · rw [if_pos hzy] at hbc
              exact Bool.noConfusion hbc
            · rw [if_pos (by omega)]
        · rw [if_neg hxy] at hab
          by_cases hyx : y.toNat < x.toNat
          · rw [if_pos hyx] at hab
            exact Bool.noConfusion hab
          · rw [if_neg hyx] at hab
            by_cases hyz : y.toNat < z.toNat
            · rw [if_pos (by omega)]
            · rw [if_neg hyz] at hbc
              by_cases hzy : z.toNat < y.toNat
              · rw [if_pos hzy] at hbc
                exact Bool.noConfusion hbc
              · rw [if_neg hzy] at hbc
                rw [if_neg (by omega), if_neg (by omega)]
                exact ih ys zs hab hbc

instance : IsTotal String (fun a b => lexLe a.data b.data = true) :=
  ⟨fun a b => lexLe_total a.data b.data⟩

instance : IsTrans String (fun a b => lexLe a.data b.data = true) :=
  ⟨fun a b c => lexLe_trans a.data b.data c.data⟩

theorem sortedUrls_sorted (l : List String) :
    List.Sorted (fun a b => lexLe a.data b.data = true) (sortedUrls l) :=
  List.sorted_insertionSort _ l

theorem sortedUrls_perm (l : List String) : (sortedUrls l).Perm l :=
  List.perm_insertionSort _ l

theorem sorted_take_le {r : String → String → Prop} {s : List String}
    (hs : List.Sorted r s) (n : Nat) :
    ∀ x ∈ s.take n, ∀ y ∈ s.drop n, r x y := by
  have h2 : List.Pairwise r (s.take n ++ s.drop n) := by
    rw [List.take_append_drop]
    exact hs
  exact (List.pairwise_append.mp h2).2.2

/-!  Behaviour of the retry loop.  -/

theorem retryGo_immediate {α : Type} (f : Nat → Except String α) (a : Nat) (e : String)
    (hf : f a = Except.error e) (h : contains429 e = false) (r : Nat) :
    retryGo f a r = ⟨Except.error e, 1, 0⟩ := by
  unfold retryGo
  rw [hf]
  dsimp only
  rw [h]
  rfl

theorem retryGo_always_429 {α : Type} (f : Nat → Except String α) (e : Nat → String)
    (hf : ∀ i, f i = Except.error (e i)) (h429 : ∀ i, contains429 (e i) = true) :
    ∀ r a, retryGo f a r = ⟨Except.error (e (a + r)), r + 1, r⟩ := by
  intro r
  induction r with
  | zero =>
    intro a
    unfold retryGo
    rw [hf a]
    dsimp only
    rw [h429 a]
    rfl
  | succ n ih =>
    intro a
    unfold retryGo
    rw [hf a]
    dsimp only
    rw [h429 a]
    have h2 := ih (a + 1)
    rw [show a + 1 + n = a + (n + 1) from by omega] at h2
    rw [if_pos rfl]
    rw [h2]

/-!  Manifest and file behaviour of the result persister.  -/

theorem setHtmlFile_keys (man : List (String × ManifestEntry)) (url path : String) :
    (setHtmlFile man url path).map Prod.fst = man.map Prod.fst := by
  unfold setHtmlFile
  rw [List.map_map]
  apply List.map_congr_left
  intro a _
  simp only [Function.comp_apply]
  split
  · rfl
  · rfl

theorem savePage_manifest_keys (acc : List (String × ManifestEntry) × List (String × String))
    (e : String × PageData) :
    (savePage acc e).1.map Prod.fst =
      acc.1.map Prod.fst ++ (if e.2.markdown != "" then [e.1] else []) := by
  simp only [savePage]
  split
  · next hskip =>
    rw [Bool.and_eq_true] at hskip
    have hmd : (e.2.markdown != "") = false := by
      rw [bne, hskip.1]
      rfl
    rw [hmd]
    simp
  · by_cases hmd : (e.2.markdown != "") = true <;> by_cases hht : (e.2.html != "") = true <;>
      simp [hmd, hht, setHtmlFile_keys]

theorem save_go_manifest_keys (pages : List (String × PageData))
    (acc : List (String × ManifestEntry) × List (String × String)) :
    (pages.foldl savePage acc).1.map Prod.fst =
      acc.1.map Prod.fst ++ (pages.filter (fun e => e.2.markdown != "")).map Prod.fst := by
  induction pages generalizing acc with
  | nil => simp
  | cons e t ih =>
    rw [List.foldl_cons, ih, savePage_manifest_keys, List.filter_cons]
    by_cases h : (e.2.markdown != "") = true
    · rw [h]
      simp
    · rw [Bool.eq_false_iff.mpr h]
      simp

theorem save_results_keys (pages : List (String × PageData)) :
    (save_results pages).1.map Prod.fst =
      (pages.filter (fun e => e.2.markdown != "")).map Prod.fst := by
  have h := save_go_manifest_keys pages ([], [])
  simpa using h

theorem mem_manifest_iff (pages : List (String × PageData)) (u : String) :
    (∃ entry, (u, entry) ∈ (save_results pages).1) ↔
      ∃ pd, (u, pd) ∈ pages ∧ pd.markdown ≠ "" := by
  constructor
  · rintro ⟨entry, he⟩
    have h2 : u ∈ (save_results pages).1.map Prod.fst := List.mem_map_of_mem Prod.fst he
    rw [save_results_keys] at h2
    obtain ⟨e, he2, hfst⟩ := List.mem_map.mp h2
    obtain ⟨he3, hmd⟩ := List.mem_filter.mp he2
    refine ⟨e.2, ?_, bne_iff_ne.mp hmd⟩
    rw [← hfst]
    exact he3
  · rintro ⟨pd, hmem, hmd⟩
    have hb : ((u, pd).2.markdown != "") = true := bne_iff_ne.mpr hmd
    have h2 : u ∈ (save_results pages).1.map Prod.fst := by
      rw [save_results_keys]
      exact List.mem_map_of_mem Prod.fst (List.mem_filter.mpr ⟨hmem, hb⟩)
    obtain ⟨e, he, hfst⟩ := List.mem_map.mp h2
    refine ⟨e.2, ?_⟩
    rw [← hfst]
    exact he

theorem savePage_files_mono (acc : List (String × ManifestEntry) × List (String × String))
    (e : String × PageData) : ∀ x ∈ acc.2, x ∈ (savePage acc e).2 := by
  intro x hx
  simp only [savePage]
  split
  · exact hx
  · by_cases hmd : (e.2.markdown != "") = true <;> by_cases hht : (e.2.html != "") = true <;>
      simp [hmd, hht, hx]

theorem save_go_files_mono (pages : List (String × PageData))
    (acc : List (String × ManifestEntry) × List (String × String)) :
    ∀ x ∈ acc.2, x ∈ (pages.foldl savePage acc).2 := by
  induction pages generalizing acc with
  | nil => exact fun x hx => hx
  | cons e t ih =>
    intro x hx
    rw [List.foldl_cons]
    exact ih (savePage acc e) x (savePage_files_mono acc e x hx)

theorem savePage_writes_html (acc : List (String × ManifestEntry) × List (String × String))
    (e : String × PageData) (hht : e.2.html ≠ "") :
    ("html/" ++ sanitize_filename e.1 ++ ".html", e.2.html) ∈ (savePage acc e).2 := by
  have hht2 : (e.2.html != "") = true := bne_iff_ne.mpr hht
  simp only [savePage]
  split
  · next hskip =>
    rw [Bool.and_eq_true] at hskip
    exact absurd (beq_iff_eq.mp hskip.2) hht
  · by_cases hmd : (e.2.markdown != "") = true <;> simp [hmd, hht2]

theorem save_go_writes_html (pages : List (String × PageData))
    (acc : List (String × ManifestEntry) × List (String × String)) (url : String)
    (pd : PageData) (hmem : (url, pd) ∈ pages) (hht : pd.html ≠ "") :
    ("html/" ++ sanitize_filename url ++ ".html", pd.html) ∈ (pages.foldl savePage acc).2 := by
  induction pages generalizing acc with
  | nil => cases hmem
  | cons e t ih =>
    rw [List.foldl_cons]
    rcases List.mem_cons.mp hmem with heq | hmem2
    · rw [← heq]
      exact save_go_files_mono t (savePage acc (url, pd)) _
        (savePage_writes_html acc (url, pd) hht)
    · exact ih (savePage acc e) hmem2

theorem save_results_writes_html (pages : List (String × PageData)) (url : String)
    (pd : PageData) (hmem : (url, pd) ∈ pages) (hht : pd.html ≠ "") :
    ("html/" ++ sanitize_filename url ++ ".html", pd.html) ∈ (save_results pages).2 :=
  save_go_writes_html pages ([], []) url pd hmem hht

/-!  Keys of the page map produced by the fetch loop.  -/

theorem fetch_all_keys (fetchPage : String → Except String PageData) (url : String)
    (initial : PageData) (docUrls : List String) (u : String) :
    (∃ pd, (u, pd) ∈ fetch_all fetchPage url initial docUrls) ↔
      ((u = url ∧ (initial.markdown ≠ "" ∨ initial.html ≠ "")) ∨
       (u ∈ docUrls ∧ u ≠ url ∧ ∃ pd, fetchPage u = Except.ok pd)) := by
  unfold fetch_all
  constructor
  · rintro ⟨pd, hmem⟩
    rcases List.mem_append.mp hmem with h | h
    · left
      split at h
      · next hcont =>
        have h2 := List.mem_singleton.mp h
        have hu : u = url := congrArg Prod.fst h2
        refine ⟨hu, ?_⟩
        rw [Bool.or_eq_true] at hcont
        rcases hcont with hc | hc
        · exact Or.inl (bne_iff_ne.mp hc)
        · exact Or.inr (bne_iff_ne.mp hc)
      · cases h
    · right
      obtain ⟨pu, hpu, hg⟩ := List.mem_filterMap.mp h
      by_cases hpe : (pu == url) = true
      · rw [if_pos hpe] at hg
        cases hg
      · rw [if_neg hpe] at hg
        rcases hfe : fetchPage pu with e | pd2
        · rw [hfe] at hg
          cases hg
        · rw [hfe] at hg
          have h2 : (pu, pd2) = (u, pd) := Option.some.inj hg
          have hu : pu = u := congrArg Prod.fst h2
          subst hu
          exact ⟨hpu, fun hcon => hpe (beq_iff_eq.mpr hcon), ⟨pd2, hfe⟩⟩
  · rintro (⟨rfl, hcontent⟩ | ⟨hdu, hne, pd, hok⟩)
    · refine ⟨initial, List.mem_append_left _ ?_⟩
      have hcond : (initial.markdown != "" || initial.html != "") = true := by
        rw [Bool.or_eq_true]
        rcases hcontent with hc | hc
        · exact Or.inl (bne_iff_ne.mpr hc)
        · exact Or.inr (bne_iff_ne.mpr hc)
      rw [if_pos hcond]
      exact List.mem_singleton.mpr rfl
    · refine ⟨pd, List.mem_append_right _ (List.mem_filterMap.mpr ⟨u, hdu, ?_⟩)⟩
      rw [if_neg (fun hcon => hne (beq_iff_eq.mp hcon)), hok]

theorem crawl_ok (ini : ScrapeResult) (mapLinks : List String)
    (fetchPage : String → Except String PageData) (target : String) (test_mode : Bool) :
    crawl (Except.ok ini) (Except.ok mapLinks) fetchPage target test_mode =
      Except.ok (save_results (fetch_all fetchPage (normalize_url target)
        ⟨ini.markdown, ini.html, ini.metadata⟩
        (crawl_discover target ini.links mapLinks test_mode))) := rfl

theorem urlparse_query (s : String) :
    (urlparse s).query = String.mk (urlparseCore s.data).query := rfl

theorem urlparse_fragment (s : String) :
    (urlparse s).fragment = String.mk (urlparseCore s.data).fragment := rfl

theorem normalize_url_data (s : String) :
    (normalize_url s).data = normalizeL s.data := rfl

/-!  Claim theorems.  -/

/-- C1: for every operation wrapped by the retry policy, an error whose
string form does not contain "429" propagates immediately, with no sleep
and no further invocation; an operation that always fails with a 429 error
is invoked exactly max_retries + 1 times, after which the last error
propagates. -/
theorem C1_retry_policy {α : Type} :
    (∀ (f : Nat → Except String α) (n : Nat) (e : String),
        f 0 = Except.error e → contains429 e = false →
        retry_with_backoff f n = ⟨Except.error e, 1, 0⟩) ∧
    (∀ (f : Nat → Except String α) (n : Nat) (e : Nat → String),
        (∀ i, f i = Except.error (e i)) → (∀ i, contains429 (e i) = true) →
        retry_with_backoff f n = ⟨Except.error (e n), n + 1, n⟩) := by
  constructor
  · intro f n e hf h429
    exact retryGo_immediate f 0 e hf h429 n
  · intro f n e hf h429
    have h := retryGo_always_429 f e hf h429 n 0
    rw [Nat.zero_add] at h
    exact h

/-- C1 witness: a non-rate-limit error propagates after one call with no
sleep; an always-429 operation is called 6 times with max_retries = 5. -/
theorem C1_retry_policy_witness :
    retry_with_backoff (fun _ => (Except.error "boom" : Except String Nat)) 5 =
      ⟨Except.error "boom", 1, 0⟩ ∧
    retry_with_backoff (fun _ => (Except.error "HTTP 429" : Except String Nat)) 5 =
      ⟨Except.error "HTTP 429", 6, 5⟩ := by
  constructor
  · exact C1_retry_policy.1 (fun _ => Except.error "boom") 5 "boom" rfl (by decide)
  · exact C1_retry_policy.2 (fun _ => Except.error "HTTP 429") 5 (fun _ => "HTTP 429")
      (fun _ => rfl) (fun _ => show contains429 "HTTP 429" = true by decide)

/-- C2 counterexample: normalize_url is NOT idempotent as claimed.  For
"http:///" the function returns "https:" but a second application returns
"https://"; for "https://x.com/a/b;c/" the slash-stripping exposes a path
parameter that the second parse removes. -/
theorem C2_normalize_url_counterexample :
    (normalize_url (normalize_url "http:///") ≠ normalize_url "http:///") ∧
    (normalize_url (normalize_url "https://x.com/a/b;c/") ≠
      normalize_url "https://x.com/a/b;c/") := by
  constructor
  · decide
  · decide

/-- C2 (amended): normalize_url is idempotent for every URL whose parsed
host is non-empty and whose parsed path contains no ';'; it always forces
the https scheme and drops query strings and fragments; and the two spec
examples both yield "https://x.com/a". -/
theorem C2_normalize_url_amended :
    (∀ x : String, (urlparse x).netloc ≠ "" → (';' : Char) ∉ (urlparse x).path.data →
        normalize_url (normalize_url x) = normalize_url x) ∧
    (∀ x : String, (urlparse (normalize_url x)).scheme = "https") ∧
    (∀ x : String, (urlparse (normalize_url x)).query = "" ∧
        (urlparse (normalize_url x)).fragment = "") ∧
    normalize_url "http://x.com/a/" = "https://x.com/a" ∧
    normalize_url "https://x.com/a" = "https://x.com/a" := by
  refine ⟨?_, ?_, ?_, by decide, by decide⟩
  · intro x hb hs
    have hb2 : (urlparseCore x.data).netloc ≠ [] := by
      intro hnil
      apply hb
      show String.mk (urlparseCore x.data).netloc = ""
      rw [hnil]
    show String.mk (normalizeL (normalizeL x.data)) = String.mk (normalizeL x.data)
    rw [normalizeL_idem x.data hb2 hs]
  · intro x
    obtain ⟨rest, hr⟩ := normalizeL_shape x.data
    show String.mk (urlparseCore (normalizeL x.data)).scheme = "https"
    rw [hr, scheme_of_https_shape]
  · intro x
    have hH : ('#' : Char) ∉ normalizeL x.data := by
      intro hc
      rcases mem_normalizeL hc with h | h | h
      · exact absurd h (by decide)
      · exact absurd (netloc_facts x.data '#' h).1 (by decide)
      · have h2 := (path_mem_facts x.data '#' h).1
        simp at h2
    have hQ : ('?' : Char) ∉ normalizeL x.data := by
      intro hc
      rcases mem_normalizeL hc with h | h | h
      · exact absurd h (by decide)
      · exact absurd (netloc_facts x.data '?' h).1 (by decide)
      · have h2 := (path_mem_facts x.data '?' h).2.1
        simp at h2
    constructor
    · rw [urlparse_query, normalize_url_data, query_empty hQ]
    · rw [urlparse_fragment, normalize_url_data, fragment_empty hH]

/-- C2 witness: the amended idempotence applied to a concrete URL, and
scheme forcing and query dropping evaluated on a concrete URL. -/
theorem C2_normalize_url_amended_witness :
    ((urlparse "https://x.com/docs/").netloc ≠ "" ∧
      (';' : Char) ∉ (urlparse "https://x.com/docs/").path.data) ∧
    normalize_url (normalize_url "https://x.com/docs/") = normalize_url "https://x.com/docs/" ∧
    (urlparse (normalize_url "http://x.com/a?q=1#f")).scheme = "https" ∧
    (urlparse (normalize_url "http://x.com/a?q=1#f")).query = "" := by
  refine ⟨⟨by decide, by decide⟩, ?_, ?_, ?_⟩
  · exact C2_normalize_url_amended.1 "https://x.com/docs/" (by decide) (by decide)
  · exact C2_normalize_url_amended.2.1 "http://x.com/a?q=1#f"
  · exact (C2_normalize_url_amended.2.2.1 "http://x.com/a?q=1#f").1

theorem takeWhile_slash_pos {l : List Char} (h : l.getLast? = some '/') :
    1 ≤ (l.reverse.takeWhile (fun c => c == '/')).length := by
  rw [← List.head?_reverse] at h
  rcases hr : l.reverse with _ | ⟨c, t⟩
  · rw [hr] at h
    simp at h
  · rw [hr] at h
    simp only [List.head?_cons, Option.some.injEq] at h
    subst h
    simp [List.takeWhile_cons]

theorem normalizeL_strip_all {l : List Char}
    (hlast : (httpsSlashes ++ (urlparseCore l).netloc ++ (urlparseCore l).path).getLast? = some '/')
    (hlen : 8 < (httpsSlashes ++ (urlparseCore l).netloc ++ (urlparseCore l).path).length) :
    normalizeL l = rstripSlash (httpsSlashes ++ (urlparseCore l).netloc ++ (urlparseCore l).path) := by
  simp only [normalizeL]
  split
  · rfl
  · next hc =>
    exfalso
    apply hc
    rw [Bool.and_eq_true]
    exact ⟨by rw [hlast]; rfl, decide_eq_true hlen⟩

theorem normalizeL_keep_of_getLast {l : List Char}
    (h : (httpsSlashes ++ (urlparseCore l).netloc ++ (urlparseCore l).path).getLast? ≠ some '/') :
    normalizeL l = httpsSlashes ++ (urlparseCore l).netloc ++ (urlparseCore l).path := by
  simp only [normalizeL]
  split
  · next hc =>
    exfalso
    rw [Bool.and_eq_true] at hc
    exact h (by rw [← beq_iff_eq]; exact hc.1)
  · rfl

theorem normalizeL_keep_of_len {l : List Char}
    (h : ¬ 8 < (httpsSlashes ++ (urlparseCore l).netloc ++ (urlparseCore l).path).length) :
    normalizeL l = httpsSlashes ++ (urlparseCore l).netloc ++ (urlparseCore l).path := by
  simp only [normalizeL]
  split
  · next hc =>
    exfalso
    rw [Bool.and_eq_true] at hc
    exact h (by simpa using hc.2)
  · rfl

/-- C3 counterexample: for "https://x.com/a//" the reconstructed form ends
in '/' and is longer than "https://", yet normalize_url removes TWO
trailing slashes, not a single one: the output is "https://x.com/a", not
"https://x.com/a/". -/
theorem C3_trailing_slash_counterexample :
    reconstructed "https://x.com/a//" = "https://x.com/a//" ∧
    normalize_url "https://x.com/a//" = "https://x.com/a" ∧
    normalize_url "https://x.com/a//" ≠ "https://x.com/a/" := by
  refine ⟨by decide, by decide, by decide⟩

/-- C3 (amended): when the reconstructed URL ends in a slash and is longer
than "https://", normalize_url strips ALL trailing slashes (some positive
number of them, leaving a result that does not end in '/'); when the
reconstructed form does not end in '/' or is not longer than "https://"
(the bare-host root form), it is returned unchanged. -/
theorem C3_trailing_slash_amended :
    ∀ url : String,
      ((reconstructed url).data.getLast? = some '/' → 8 < (reconstructed url).length →
        (∃ k, 1 ≤ k ∧
          (reconstructed url).data = (normalize_url url).data ++ List.replicate k '/') ∧
        (normalize_url url).data.getLast? ≠ some '/') ∧
      ((reconstructed url).data.getLast? ≠ some '/' → normalize_url url = reconstructed url) ∧
      (¬ 8 < (reconstructed url).length → normalize_url url = reconstructed url) := by
  intro url
  have hd : (reconstructed url).data =
      httpsSlashes ++ (urlparseCore url.data).netloc ++ (urlparseCore url.data).path := rfl
  refine ⟨?_, ?_, ?_⟩
  · intro hlast hlen
    rw [hd] at hlast
    have hlen2 : 8 < (httpsSlashes ++ (urlparseCore url.data).netloc ++
        (urlparseCore url.data).path).length := hlen
    have hstrip := normalizeL_strip_all hlast hlen2
    refine ⟨⟨((httpsSlashes ++ (urlparseCore url.data).netloc ++
        (urlparseCore url.data).path).reverse.takeWhile (fun c => c == '/')).length,
        takeWhile_slash_pos hlast, ?_⟩, ?_⟩
    · rw [hd, normalize_url_data, hstrip]
      exact rstripSlash_spec _
    · rw [normalize_url_data, hstrip]
      exact rstripSlash_getLast _
  · intro hne
    rw [hd] at hne
    show String.mk (normalizeL url.data) = reconstructed url
    rw [normalizeL_keep_of_getLast hne]
    rfl
  · intro hlen
    rw [show (reconstructed url).length = (httpsSlashes ++ (urlparseCore url.data).netloc ++
        (urlparseCore url.data).path).length from rfl] at hlen
    show String.mk (normalizeL url.data) = reconstructed url
    rw [normalizeL_keep_of_len hlen]
    rfl

/-- C3 witness: each branch of the amended statement applied to a concrete
URL ("https://x.com/a//" strips both slashes; "https://x.com/a" and the
bare "https://" are unchanged). -/
theorem C3_trailing_slash_amended_witness :
    (∃ k, 1 ≤ k ∧ (reconstructed "https://x.com/a//").data =
        (normalize_url "https://x.com/a//").data ++ List.replicate k '/') ∧
    normalize_url "https://x.com/a" = reconstructed "https://x.com/a" ∧
    normalize_url "https://" = reconstructed "https://" := by
  refine ⟨((C3_trailing_slash_amended "https://x.com/a//").1 (by decide) (by decide)).1, ?_, ?_⟩
  · exact (C3_trailing_slash_amended "https://x.com/a").2.1 (by decide)
  · exact (C3_trailing_slash_amended "https://").2.2 (by decide)

/-- C4: for every URL and every pattern in the classifier's pattern set
(for any target), the source matching test agrees with the spec's matching
predicate: a wildcard pattern matches exactly when its literal prefix (the
".*" suffix stripped) is a substring of the URL's path, a bare pattern
matches exactly on path equality, case-insensitively on the path. -/
theorem C4_pattern_matching :
    ∀ (target u pattern : String), pattern ∈ get_docs_patterns target →
      matchesPattern u pattern = specMatchesPattern u pattern := by
  intro target u pattern hp
  simp only [get_docs_patterns] at hp
  split at hp
  · fin_cases hp <;>
      first
        | exact matchesPattern_eq_spec_wildcard u _ (by decide) (by decide)
        | exact matchesPattern_eq_spec_bare u _ (by decide)
  · split at hp
    · fin_cases hp <;>
        first
          | exact matchesPattern_eq_spec_wildcard u _ (by decide) (by decide)
          | exact matchesPattern_eq_spec_bare u _ (by decide)
    · split at hp
      · fin_cases hp <;>
          first
            | exact matchesPattern_eq_spec_wildcard u _ (by decide) (by decide)
            | exact matchesPattern_eq_spec_bare u _ (by decide)
      · fin_cases hp <;>
          first
            | exact matchesPattern_eq_spec_wildcard u _ (by decide) (by decide)
            | exact matchesPattern_eq_spec_bare u _ (by decide)

/-- C4 witness: the agreement applied to the concrete pattern "/docs/.*"
from the default set and a concrete URL with an upper-case path. -/
theorem C4_pattern_matching_witness :
    "/docs/.*" ∈ get_docs_patterns "https://x.com" ∧
    matchesPattern "https://x.com/DOCS/intro" "/docs/.*" =
      specMatchesPattern "https://x.com/DOCS/intro" "/docs/.*" :=
  ⟨by decide,
   C4_pattern_matching "https://x.com" "https://x.com/DOCS/intro" "/docs/.*" (by decide)⟩

theorem doc_urls_no_match {patterns urls : List String}
    (h : ∀ u ∈ urls, ∀ p ∈ patterns, matchesPattern u p = false) :
    doc_urls patterns urls = urls := by
  simp only [doc_urls]
  have hf : urls.filter (fun u => patterns.any (fun pattern => matchesPattern u pattern)) = [] := by
    rw [List.filter_eq_nil_iff]
    intro u hu
    rw [Bool.not_eq_true, List.any_eq_false]
    intro p hp
    rw [Bool.not_eq_true]
    exact h u hu p hp
  rw [hf]
  rfl

theorem doc_urls_some_match {patterns urls : List String}
    (h : ∃ u ∈ urls, ∃ p ∈ patterns, matchesPattern u p = true) :
    doc_urls patterns urls =
      urls.filter (fun u => patterns.any (fun pattern => matchesPattern u pattern)) := by
  obtain ⟨u, hu, p, hp, hm⟩ := h
  simp only [doc_urls]
  have hmem : u ∈ urls.filter (fun u => patterns.any (fun pattern => matchesPattern u pattern)) := by
    rw [List.mem_filter]
    exact ⟨hu, by rw [List.any_eq_true]; exact ⟨p, hp, hm⟩⟩
  split
  · next he =>
    exfalso
    rw [List.isEmpty_iff] at he
    rw [he] at hmem
    simp at hmem
  · rfl

/-- C5: for every discovered domain-scoped URL set, if no URL in it
matches any classifier pattern for the target then classification returns
the full set unchanged (the fallback); if some URL matches some pattern,
the candidate set is exactly the matching subset. -/
theorem C5_classification_fallback :
    ∀ (target base : String) (initialLinks mapLinks : List String),
      ((∀ u ∈ all_urls base initialLinks mapLinks, ∀ p ∈ get_docs_patterns target,
          matchesPattern u p = false) →
        doc_urls (get_docs_patterns target) (all_urls base initialLinks mapLinks) =
          all_urls base initialLinks mapLinks) ∧
      ((∃ u ∈ all_urls base initialLinks mapLinks, ∃ p ∈ get_docs_patterns target,
          matchesPattern u p = true) →
        doc_urls (get_docs_patterns target) (all_urls base initialLinks mapLinks) =
          (all_urls base initialLinks mapLinks).filter
            (fun u => (get_docs_patterns target).any (fun pattern => matchesPattern u pattern))) :=
  fun _ _ _ _ => ⟨doc_urls_no_match, doc_urls_some_match⟩

/-- C5 witness: the fallback branch on a link set where nothing matches
("/zzz"), and the filtering branch on one where "/docs/a" matches. -/
theorem C5_classification_fallback_witness :
    (∀ u ∈ all_urls "x.com" ["https://x.com/zzz"] [], ∀ p ∈ get_docs_patterns "https://x.com",
        matchesPattern u p = false) ∧
    doc_urls (get_docs_patterns "https://x.com") (all_urls "x.com" ["https://x.com/zzz"] []) =
      all_urls "x.com" ["https://x.com/zzz"] [] ∧
    doc_urls (get_docs_patterns "https://x.com") (all_urls "x.com" ["https://x.com/docs/a"] []) =
      (all_urls "x.com" ["https://x.com/docs/a"] []).filter
        (fun u => (get_docs_patterns "https://x.com").any
          (fun pattern => matchesPattern u pattern)) := by
  refine ⟨by decide, ?_, ?_⟩
  · exact (C5_classification_fallback "https://x.com" "x.com" ["https://x.com/zzz"] []).1
      (by decide)
  · exact (C5_classification_fallback "https://x.com" "x.com" ["https://x.com/docs/a"] []).2
      (by decide)

/-- C6: in test mode, a candidate set with more than 10 elements is
replaced by the first 10 of its sorted order: the result has length 10, is
lexicographically sorted, is a subset of the candidates, every kept URL is
lexicographically at most every dropped URL, and kept plus dropped is a
permutation of the candidates; a set of 10 or fewer is left unchanged. -/
theorem C6_test_mode_cap :
    ∀ (target : String) (initialLinks mapLinks : List String),
      (10 < (discovered target initialLinks mapLinks).length →
        crawl_discover target initialLinks mapLinks true =
          (sortedUrls (discovered target initialLinks mapLinks)).take 10 ∧
        (crawl_discover target initialLinks mapLinks true).length = 10 ∧
        List.Sorted (fun a b => lexLe a.data b.data = true)
          (crawl_discover target initialLinks mapLinks true) ∧
        (∀ x ∈ crawl_discover target initialLinks mapLinks true,
          x ∈ discovered target initialLinks mapLinks) ∧
        (∀ x ∈ crawl_discover target initialLinks mapLinks true,
          ∀ y ∈ (sortedUrls (discovered target initialLinks mapLinks)).drop 10,
            lexLe x.data y.data = true) ∧
        (crawl_discover target initialLinks mapLinks true ++
          (sortedUrls (discovered target initialLinks mapLinks)).drop 10).Perm
            (discovered target initialLinks mapLinks)) ∧
      (¬ 10 < (discovered target initialLinks mapLinks).length →
        crawl_discover target initialLinks mapLinks true =
          discovered target initialLinks mapLinks) := by
  intro target i m
  have hcd : crawl_discover target i m true =
      if true = true ∧ 10 < (discovered target i m).length
      then (sortedUrls (discovered target i m)).take 10
      else discovered target i m := rfl
  constructor
  · intro hlen
    have hif : crawl_discover target i m true =
        (sortedUrls (discovered target i m)).take 10 := by
      rw [hcd, if_pos ⟨rfl, hlen⟩]
    refine ⟨hif, ?_, ?_, ?_, ?_, ?_⟩
    · rw [hif, List.length_take]
      have hpl : (sortedUrls (discovered target i m)).length =
          (discovered target i m).length := (sortedUrls_perm _).length_eq
      omega
    · rw [hif]
      exact List.Pairwise.sublist (List.take_sublist 10 _) (sortedUrls_sorted _)
    · intro x hx
      rw [hif] at hx
      exact (sortedUrls_perm _).mem_iff.mp (List.mem_of_mem_take hx)
    · intro x hx
      rw [hif] at hx
      exact sorted_take_le (sortedUrls_sorted _) 10 x hx
    · rw [hif, List.take_append_drop]
      exact sortedUrls_perm _
  · intro hlen
    rw [hcd, if_neg (fun hcon => hlen hcon.2)]

/-- C6 witness: with 11 matching candidates the cap keeps exactly 10; with
a single candidate the list is unchanged. -/
theorem C6_test_mode_cap_witness :
    10 < (discovered "https://x.com"
      ["https://x.com/docs/a", "https://x.com/docs/b", "https://x.com/docs/c",
       "https://x.com/docs/d", "https://x.com/docs/e", "https://x.com/docs/f",
       "https://x.com/docs/g", "https://x.com/docs/h", "https://x.com/docs/i",
       "https://x.com/docs/j", "https://x.com/docs/k"] []).length ∧
    (crawl_discover "https://x.com"
      ["https://x.com/docs/a", "https://x.com/docs/b", "https://x.com/docs/c",
       "https://x.com/docs/d", "https://x.com/docs/e", "https://x.com/docs/f",
       "https://x.com/docs/g", "https://x.com/docs/h", "https://x.com/docs/i",
       "https://x.com/docs/j", "https://x.com/docs/k"] [] true).length = 10 ∧
    crawl_discover "https://x.com" ["https://x.com/docs/a"] [] true =
      discovered "https://x.com" ["https://x.com/docs/a"] [] := by
  refine ⟨by decide, ?_, ?_⟩
  · exact ((C6_test_mode_cap "https://x.com"
      ["https://x.com/docs/a", "https://x.com/docs/b", "https://x.com/docs/c",
       "https://x.com/docs/d", "https://x.com/docs/e", "https://x.com/docs/f",
       "https://x.com/docs/g", "https://x.com/docs/h", "https://x.com/docs/i",
       "https://x.com/docs/j", "https://x.com/docs/k"] []).1 (by decide)).2.1
  · exact (C6_test_mode_cap "https://x.com" ["https://x.com/docs/a"] []).2 (by decide)

theorem urlparse_netloc (s : String) :
    (urlparse s).netloc = String.mk (urlparseCore s.data).netloc := rfl

theorem string_eq_of_data {s t : String} (h : s.data = t.data) : s = t :=
  congrArg String.mk h

theorem mem_doc_urls {patterns urls : List String} {u : String}
    (h : u ∈ doc_urls patterns urls) : u ∈ urls := by
  simp only [doc_urls] at h
  split at h
  · exact h
  · exact List.mem_of_mem_filter h

theorem mem_internal_links {base : String} {links : List String} {u : String}
    (h : u ∈ internal_links base links) :
    ∃ v ∈ links, (urlparse v).netloc = base ∧ u = normalize_url v := by
  simp only [internal_links] at h
  obtain ⟨v, hv, rfl⟩ := List.mem_map.mp h
  have hvf := List.mem_filter.mp hv
  exact ⟨v, hvf.1, beq_iff_eq.mp hvf.2, rfl⟩

theorem netloc_of_normalized {v base : String}
    (hvb : (urlparse v).netloc = base) (hb : base ≠ "") :
    (urlparse (normalize_url v)).netloc = base := by
  have hdata : (urlparseCore v.data).netloc = base.data := congrArg String.data hvb
  have hne : (urlparseCore v.data).netloc ≠ [] := by
    intro h0
    apply hb
    apply string_eq_of_data
    show base.data = ([] : List Char)
    rw [← hdata, h0]
  rw [urlparse_netloc, normalize_url_data, netloc_normalizeL v.data hne, hdata]

/-- C7 counterexample: for target "/a" the base domain parses as the empty
host, the raw link "a/b" (also empty host) passes the domain filter, and
its normalized form "https://a/b" enters the candidate set with host "a",
different from the target's base domain. -/
theorem C7_domain_scoping_counterexample :
    (urlparse (normalize_url "/a")).netloc = "" ∧
    "https://a/b" ∈ crawl_discover "/a" ["a/b"] [] false ∧
    (urlparse "https://a/b").netloc = "a" := by
  refine ⟨by decide, by decide, by decide⟩

/-- C7 (amended): whenever the target's base domain is non-empty, every
URL in the candidate set produced by discovery has host exactly equal to
the base domain, for every combination of initial-page links and site-map
links and either test mode. -/
theorem C7_domain_scoping_amended :
    ∀ (target : String) (initialLinks mapLinks : List String) (tm : Bool),
      (urlparse (normalize_url target)).netloc ≠ "" →
      ∀ u ∈ crawl_discover target initialLinks mapLinks tm,
        (urlparse u).netloc = (urlparse (normalize_url target)).netloc := by
  intro target i m tm hb u hu
  have hcd : crawl_discover target i m tm =
      if tm = true ∧ 10 < (discovered target i m).length
      then (sortedUrls (discovered target i m)).take 10
      else discovered target i m := rfl
  rw [hcd] at hu
  have hdu : u ∈ discovered target i m := by
    split at hu
    · exact (sortedUrls_perm _).mem_iff.mp (List.mem_of_mem_take hu)
    · exact hu
  have hdu2 : u ∈ doc_urls (get_docs_patterns (normalize_url target))
      (all_urls (urlparse (normalize_url target)).netloc i m) := hdu
  have hall := mem_doc_urls hdu2
  simp only [all_urls] at hall
  rw [List.mem_dedup] at hall
  rcases List.mem_append.mp hall with h | h <;>
    · obtain ⟨v, hv, hvb, rfl⟩ := mem_internal_links h
      exact netloc_of_normalized hvb hb

/-- C7 witness: for target "https://x.com" the same-host link is kept, and
its host is the base domain. -/
theorem C7_domain_scoping_amended_witness :
    (urlparse (normalize_url "https://x.com")).netloc ≠ "" ∧
    "https://x.com/docs/a" ∈ crawl_discover "https://x.com"
      ["https://x.com/docs/a", "https://y.com/docs/b"] [] false ∧
    (urlparse "https://x.com/docs/a").netloc =
      (urlparse (normalize_url "https://x.com")).netloc := by
  refine ⟨by decide, by decide, ?_⟩
  exact C7_domain_scoping_amended "https://x.com"
    ["https://x.com/docs/a", "https://y.com/docs/b"] [] false (by decide)
    "https://x.com/docs/a" (by decide)

/-- C8 counterexample: a page with HTML but no markdown gets its HTML
artifact written, yet receives NO manifest entry — the manifest is empty. -/
theorem C8_html_only_counterexample :
    ("html/" ++ sanitize_filename "https://x.com/a" ++ ".html", "<p>hi</p>") ∈
      (save_results [("https://x.com/a", PageData.mk "" "<p>hi</p>" [])]).2 ∧
    (save_results [("https://x.com/a", PageData.mk "" "<p>hi</p>" [])]).1 = [] := by
  refine ⟨by decide, by decide⟩

/-- C8 (amended): for every page record with non-empty HTML and empty
markdown, persistence writes the HTML artifact, but the page receives a
manifest entry only if some record for the same URL has non-empty
markdown; in particular, when every record for the URL is HTML-only, the
URL is absent from the manifest. -/
theorem C8_html_only_amended :
    ∀ (pages : List (String × PageData)) (url : String) (pd : PageData),
      (url, pd) ∈ pages → pd.html ≠ "" → pd.markdown = "" →
      ("html/" ++ sanitize_filename url ++ ".html", pd.html) ∈ (save_results pages).2 ∧
      ((∃ entry, (url, entry) ∈ (save_results pages).1) ↔
        ∃ pd2, (url, pd2) ∈ pages ∧ pd2.markdown ≠ "") ∧
      ((∀ pd2, (url, pd2) ∈ pages → pd2.markdown = "") →
        ¬ ∃ entry, (url, entry) ∈ (save_results pages).1) := by
  intro pages url pd hmem hht _
  refine ⟨save_results_writes_html pages url pd hmem hht, mem_manifest_iff pages url, ?_⟩
  rintro hall ⟨entry, he⟩
  obtain ⟨pd2, hm2, hne⟩ := (mem_manifest_iff pages url).mp ⟨entry, he⟩
  exact hne (hall pd2 hm2)

/-- C8 witness: the amended statement applied to a concrete HTML-only
page: the HTML artifact is written and the manifest stays empty. -/
theorem C8_html_only_amended_witness :
    ("html/" ++ sanitize_filename "https://x.com/a" ++ ".html", "<p>hi</p>") ∈
      (save_results [("https://x.com/a", PageData.mk "" "<p>hi</p>" [])]).2 ∧
    ¬ ∃ entry, ("https://x.com/a", entry) ∈
      (save_results [("https://x.com/a", PageData.mk "" "<p>hi</p>" [])]).1 := by
  have h := C8_html_only_amended [("https://x.com/a", PageData.mk "" "<p>hi</p>" [])]
    "https://x.com/a" (PageData.mk "" "<p>hi</p>" []) (List.mem_singleton.mpr rfl)
    (by decide) rfl
  refine ⟨h.1, h.2.2 ?_⟩
  intro pd2 hm2
  have h3 : (("https://x.com/a" : String), pd2) =
      ("https://x.com/a", PageData.mk "" "<p>hi</p>" []) := List.mem_singleton.mp hm2
  have h4 : pd2 = PageData.mk "" "<p>hi</p>" [] := congrArg Prod.snd h3
  rw [h4]

/-- C9 counterexample: with two candidates, one failing fetch and one
fetch that succeeds with empty content, the run still completes, the
failing URL is skipped, but the manifest does NOT contain the successfully
fetched empty page: it is not "exactly the pages whose fetches
succeeded". -/
theorem C9_partial_failure_counterexample :
    crawl
      (Except.ok (ScrapeResult.mk "m0" ""
        ["https://x.com/docs/a", "https://x.com/docs/b"] []))
      (Except.ok [])
      (fun u => if u == "https://x.com/docs/a" then Except.ok (PageData.mk "" "" [])
                else Except.error "boom")
      "https://x.com" false =
      Except.ok ([("https://x.com", ManifestEntry.mk (some "index.md") none "" "")],
                 [("index.md", "m0")]) ∧
    (fun u => if u == "https://x.com/docs/a" then Except.ok (PageData.mk "" "" [])
              else Except.error "boom") "https://x.com/docs/a" =
      Except.ok (PageData.mk "" "" []) ∧
    "https://x.com/docs/a" ∈ crawl_discover "https://x.com"
      ["https://x.com/docs/a", "https://x.com/docs/b"] [] false := by
  refine ⟨rfl, rfl, by decide⟩

/-- C9 (amended): when the two discovery-phase calls succeed, the run
always completes successfully regardless of per-page fetch failures; the
page map contains exactly the initial page (when it has content) together
with the candidates other than the initial URL whose fetch succeeded; and
the manifest contains exactly the pages of the map with non-empty
markdown. -/
theorem C9_partial_failure_amended :
    ∀ (ini : ScrapeResult) (mapLinks : List String)
      (fetchPage : String → Except String PageData) (target : String) (tm : Bool),
      ∃ res, crawl (Except.ok ini) (Except.ok mapLinks) fetchPage target tm =
          Except.ok res ∧
        (∀ u : String,
          (∃ pd, (u, pd) ∈ fetch_all fetchPage (normalize_url target)
              (PageData.mk ini.markdown ini.html ini.metadata)
              (crawl_discover target ini.links mapLinks tm)) ↔
            ((u = normalize_url target ∧ (ini.markdown ≠ "" ∨ ini.html ≠ "")) ∨
             (u ∈ crawl_discover target ini.links mapLinks tm ∧ u ≠ normalize_url target ∧
              ∃ pd, fetchPage u = Except.ok pd))) ∧
        (∀ u : String,
          (∃ entry, (u, entry) ∈ res.1) ↔
            ∃ pd, (u, pd) ∈ fetch_all fetchPage (normalize_url target)
                (PageData.mk ini.markdown ini.html ini.metadata)
                (crawl_discover target ini.links mapLinks tm) ∧ pd.markdown ≠ "") := by
  intro ini mapLinks f target tm
  refine ⟨save_results (fetch_all f (normalize_url target)
      ⟨ini.markdown, ini.html, ini.metadata⟩ (crawl_discover target ini.links mapLinks tm)),
    crawl_ok ini mapLinks f target tm, ?_, ?_⟩
  · intro u
    exact fetch_all_keys f (normalize_url target)
      (PageData.mk ini.markdown ini.html ini.metadata)
      (crawl_discover target ini.links mapLinks tm) u
  · intro u
    exact mem_manifest_iff _ u

theorem map_slash_free (l : List Char) :
    ('/' : Char) ∉ l.map (fun c => if c == '/' then '-' else c) := by
  intro h
  obtain ⟨c, hc, he⟩ := List.mem_map.mp h
  by_cases h2 : (c == '/') = true
  · rw [if_pos h2] at he
    exact absurd he (by decide)
  · rw [if_neg h2] at he
    apply h2
    rw [he]
    rfl

/-- C10: for every URL, sanitize_filename is non-empty and contains no
'/' character; a path empty after stripping slashes yields "index"; and
percent-decoding happens before slash replacement, so the encoded slash in
"a%2Fb" becomes a hyphen. -/
theorem C10_sanitize_filename :
    ∀ url : String,
      sanitize_filename url ≠ "" ∧
      ('/' : Char) ∉ (sanitize_filename url).data ∧
      (stripSlashes (unquoteL (urlparse url).path.data) = [] →
        sanitize_filename url = "index") ∧
      sanitize_filename "https://x.com/a%2Fb" = "a-b" := by
  intro url
  refine ⟨?_, ?_, ?_, by decide⟩
  · simp only [sanitize_filename]
    split
    · decide
    · next hne =>
      intro h0
      have h1 : ((stripSlashes (unquoteL (urlparse url).path.data)).map
          (fun c => if c == '/' then '-' else c)) = ([] : List Char) :=
        congrArg String.data h0
      apply hne
      rw [List.isEmpty_iff]
      exact h1
  · simp only [sanitize_filename]
    split
    · decide
    · exact map_slash_free _
  · intro h
    simp only [sanitize_filename]
    rw [h]
    rfl

/-- C10 witness: the encoded-slash example is non-empty, and an all-slash
path yields "index". -/
theorem C10_sanitize_filename_witness :
    sanitize_filename "https://x.com/a%2Fb" ≠ "" ∧
    stripSlashes (unquoteL (urlparse "https://x.com///").path.data) = [] ∧
    sanitize_filename "https://x.com///" = "index" := by
  refine ⟨(C10_sanitize_filename "https://x.com/a%2Fb").1, by decide, ?_⟩
  exact (C10_sanitize_filename "https://x.com///").2.2.1 (by decide)
